import Mathlib

/-!
# ioclose: closing several closers together

A shallow embedding of `closer.go` (package `ioclose`) and the properties of its
close pass.

Modelling choices.

* A Go `error` is `Option ε`: `none` is the nil error.
* A value of type `func() error` is `Option Func`: `none` is the nil function.
  A value of the interface type is `Option Closer`: `none` is the nil interface.
* Caller-supplied code (a function literal, or the `Close` method of a caller
  type) is named by a handle `id : Nat`; its behaviour is `env id`, a function
  on the program state that returns normally.  The program state holds the
  aggregator itself, the error variables that a `*error` may point to, and the
  rest of the caller's state, so a callback may touch any of them.
* The functions of the package run on a `Run`: the program state together with
  the log of the calls that the function made itself, each with the error the
  callee returned.  Callbacks cannot see the log.
* The variadic arguments of `Append` and `AppendFunc` are a list: these methods
  make no call, so nothing runs while they read their arguments.  The variadic
  arguments of `CloseAll` are a `Slice`: a length, fixed when the call is made,
  and the read of an element in the current program state, because for a call
  `CloseAll(s...)` the elements are those of the caller's `s`, which a callback
  may write while `CloseAll` runs.
* A run-time failure of the package's code (an index out of range in
  `Closers.Close`) is `none`.
-/

namespace Ioclose

/-- A non-nil value of type `func() error`. -/
inductive Func where
  /-- Caller-supplied code with handle `id`. -/
  | user (id : Nat)
  /-- The method value `CloserFunc(nil).Close`. -/
  | closerFuncNil
  /-- The method value `CloserFunc(fn).Close` for a non-nil `fn`. -/
  | closerFunc (fn : Func)
  deriving DecidableEq

/-- A non-nil value of the interface type `interface { Close() error }`. -/
inductive Closer where
  /-- A value of a caller type whose `Close` method is the caller code `id`. -/
  | obj (id : Nat)
  /-- The value `CloserFunc(fn)`; `fn` may be the nil function. -/
  | closerFunc (fn : Option Func)
  deriving DecidableEq

/-- The method value `cl.Close` of a non-nil interface value. -/
def Closer.Close : Closer → Func
  | .obj id => .user id
  | .closerFunc none => .closerFuncNil
  | .closerFunc (some fn) => .closerFunc fn

/-- The type `Closers`: its only field is the slice `closers []func() error`. -/
structure Closers where
  closers : List (Option Func)
  deriving DecidableEq

/-- The program state that callbacks act on: the aggregator `c`, the error
variables (addressed by `Nat`; a non-nil `*error` is an address), and the rest
of the caller's state. -/
structure State (σ ε : Type) where
  c : Closers
  errs : Nat → Option ε
  ext : σ

/-- The behaviour of the caller-supplied code, by handle. -/
abbrev Env (σ ε : Type) := Nat → State σ ε → State σ ε × Option ε

/-- Running a function value.  For the method values of `CloserFunc` this is the
body of `CloserFunc.Close`: `if fn == nil { return nil }; return fn()`. -/
def Func.call {σ ε : Type} (env : Env σ ε) : Func → State σ ε → State σ ε × Option ε
  | .user id, s => env id s
  | .closerFuncNil, s => (s, none)
  | .closerFunc fn, s => fn.call env s

/-- One logged call: the callee and the error it returned. -/
structure Event (ε : Type) where
  fn : Func
  res : Option ε
  deriving DecidableEq

/-- The program state with the log of the calls made so far. -/
structure Run (σ ε : Type) where
  st : State σ ε
  trace : List (Event ε)

/-- A call site `f()` of the package: run `f` on the state, log the call. -/
def invoke {σ ε : Type} (env : Env σ ε) (f : Func) (r : Run σ ε) : Run σ ε × Option ε :=
  let out := f.call env r.st
  ({ st := out.1, trace := r.trace ++ [⟨f, out.2⟩] }, out.2)

/-- The update `if e != nil && err == nil { err = e }` of the named result. -/
def keepFirst {ε : Type} (err e : Option ε) : Option ε :=
  if e.isSome && err.isNone then e else err

/-- The method `func (fn CloserFunc) Close() error`. -/
def CloserFunc.Close {σ ε : Type} (env : Env σ ε) (fn : Option Func) (r : Run σ ε) :
    Run σ ε × Option ε :=
  match fn with
  | none => (r, none)
  | some f => invoke env f r

/-- A slice of interface values as the callee receives it: its length, fixed
when the call is made, and the read of element `i` of its backing array in the
current program state (`none` is the nil interface).  For a call `f(s...)` the
backing array is that of the caller's `s`; for a call `f(a, b, c)` it is a new
array that nothing else can reach. -/
structure Slice (σ ε : Type) where
  len : Nat
  get : State σ ε → Nat → Option Closer

/-- The slice of a call with explicit arguments `f(a, b, c)`: its elements are
the arguments, whatever the program state. -/
def Slice.ofList {σ ε : Type} (args : List (Option Closer)) : Slice σ ε :=
  { len := args.length, get := fun _ i => (args[i]?).join }

/-- The loop of `CloseAll`: `for _, c := range closers`, with the named result
`err` as accumulator.  The range expression is evaluated once, so the number of
iterations is the length at entry; `i` is the index of the current iteration,
the second counter the number of iterations left, and element `i` is read when
iteration `i` begins. -/
def CloseAll.loop {σ ε : Type} (env : Env σ ε) (closers : Slice σ ε) :
    Nat → Nat → Run σ ε → Option ε → Run σ ε × Option ε
  | _, 0, r, err => (r, err)
  | i, k + 1, r, err =>
    match closers.get r.st i with
    | none => CloseAll.loop env closers (i + 1) k r err
    | some c =>
      let out := invoke env c.Close r
      CloseAll.loop env closers (i + 1) k out.1 (keepFirst err out.2)

/-- The function `CloseAll(closers ...interface{ Close() error }) (err error)`. -/
def CloseAll {σ ε : Type} (env : Env σ ε) (closers : Slice σ ε) (r : Run σ ε) :
    Run σ ε × Option ε :=
  CloseAll.loop env closers 0 closers.len r none

/-- The loop of `Closers.Close`: `for i := len(c.closers) - 1; i >= 0; i--`.
The counter is `i + 1`; `c.closers[i]` is read from the current state at each
iteration, and an index out of range fails. -/
def Closers.Close.loop {σ ε : Type} (env : Env σ ε) :
    Nat → Run σ ε → Option ε → Option (Run σ ε × Option ε)
  | 0, r, err => some (r, err)
  | i + 1, r, err =>
    match r.st.c.closers[i]? with
    | none => none
    | some none => Closers.Close.loop env i r err
    | some (some f) =>
      let out := invoke env f r
      Closers.Close.loop env i out.1 (keepFirst err out.2)

/-- The method `func (c *Closers) Close() (err error)`: the loop, then
`c.closers = nil`. -/
def Closers.Close {σ ε : Type} (env : Env σ ε) (r : Run σ ε) : Option (Run σ ε × Option ε) :=
  match Closers.Close.loop env r.st.c.closers.length r none with
  | none => none
  | some (r', err) => some ({ r' with st := { r'.st with c := { closers := [] } } }, err)

/-- The method `func (c *Closers) CloseDefered(perr *error)`; `perr = none` is
the nil pointer. -/
def Closers.CloseDefered {σ ε : Type} (env : Env σ ε) (perr : Option Nat) (r : Run σ ε) :
    Option (Run σ ε) :=
  match Closers.Close env r with
  | none => none
  | some (r', err) =>
    match perr with
    | none => some r'
    | some p =>
      if (r'.st.errs p).isNone then
        some { r' with st := { r'.st with errs := Function.update r'.st.errs p err } }
      else some r'

/-- The method `func (c *Closers) Append(closers ...interface{ Close() error })`. -/
def Closers.Append {σ ε : Type} : List (Option Closer) → State σ ε → State σ ε
  | [], s => s
  | none :: rest, s => Closers.Append rest s
  | some cl :: rest, s =>
    Closers.Append rest { s with c := { closers := s.c.closers ++ [some cl.Close] } }

/-- The method `func (c *Closers) AppendFunc(closers ...func() error)`. -/
def Closers.AppendFunc {σ ε : Type} : List (Option Func) → State σ ε → State σ ε
  | [], s => s
  | none :: rest, s => Closers.AppendFunc rest s
  | some f :: rest, s =>
    Closers.AppendFunc rest { s with c := { closers := s.c.closers ++ [some f] } }

/-! ## Registration sequences and the vocabulary of the statements -/

/-- One registration call on the aggregator. -/
inductive Reg where
  | append (closers : List (Option Closer))
  | appendFunc (closers : List (Option Func))
  deriving DecidableEq

/-- Performing one registration call. -/
def Reg.run {σ ε : Type} : Reg → State σ ε → State σ ε
  | .append cs, s => Closers.Append cs s
  | .appendFunc fs, s => Closers.AppendFunc fs s

/-- The non-nil entries of one registration call, in argument order, as the
function values that the call hands to the aggregator. -/
def Reg.entries : Reg → List Func
  | .append cs => (cs.filterMap id).map Closer.Close
  | .appendFunc fs => fs.filterMap id

/-- A registration call all of whose arguments are nil. -/
def Reg.onlyNil : Reg → Bool
  | .append cs => cs.all Option.isNone
  | .appendFunc fs => fs.all Option.isNone

/-- Performing a sequence of registration calls, first call first. -/
def register {σ ε : Type} : List Reg → State σ ε → State σ ε
  | [], s => s
  | op :: ops, s => register ops (op.run s)

/-- The non-nil entries of a sequence of registration calls, in the order in
which they are registered. -/
def registered : List Reg → List Func
  | [] => []
  | op :: ops => op.entries ++ registered ops

/-- The first non-nil error of a list of results, nil when there is none. -/
def firstErr {ε : Type} : List (Option ε) → Option ε
  | [] => none
  | none :: rest => firstErr rest
  | some e :: _ => some e

/-- Calling the functions of a list one after the other, first one first, with
the accumulated error: what a close pass does once its entries are fixed. -/
def invokeAll {σ ε : Type} (env : Env σ ε) :
    List Func → Run σ ε → Option ε → Run σ ε × Option ε
  | [], r, err => (r, err)
  | f :: fs, r, err =>
    let out := invoke env f r
    invokeAll env fs out.1 (keepFirst err out.2)

/-- No callback touches the aggregator. -/
def KeepsAggregator {σ ε : Type} (env : Env σ ε) : Prop :=
  ∀ id s, (env id s).1.c = s.c

/-- No callback removes or replaces an entry of the aggregator: whatever a
callback does, the entries held before it ran are still there, at the same
positions, when it returns (it may have appended more). -/
def KeepsEntries {σ ε : Type} (env : Env σ ε) : Prop :=
  ∀ id s, ∃ t, (env id s).1.c.closers = s.c.closers ++ t

/-- No callback changes the error variable at address `p`. -/
def KeepsErr {σ ε : Type} (env : Env σ ε) (p : Nat) : Prop :=
  ∀ id s, (env id s).1.errs p = s.errs p

/-! ## The example of the test file

`ExampleClosers_CloseDefered`: `closer1`, `closer3` and `closer4` print their
name and succeed, `closer2` prints its name and fails with it.  The caller's
state is the printed output. -/

/-- The callbacks of the example. -/
def exampleEnv : Env (List String) String
  | 1, s => ({ s with ext := s.ext ++ ["closer1"] }, none)
  | 2, s => ({ s with ext := s.ext ++ ["closer2"] }, some "closer2")
  | 3, s => ({ s with ext := s.ext ++ ["closer3"] }, none)
  | 4, s => ({ s with ext := s.ext ++ ["closer4"] }, none)
  | _, s => (s, none)

/-- The state of the example before any registration: `var err error` at
address `0`, `var all ioclose.Closers`, nothing printed. -/
def exampleInit : State (List String) String :=
  { c := { closers := [] }, errs := fun _ => none, ext := [] }

/-- The registration calls of the example. -/
def exampleRegs : List Reg :=
  [.append [some (.obj 1)], .append [some (.obj 2)], .append [some (.obj 3)],
   .appendFunc [some (.user 4)]]

/-! ## Callbacks that interfere with the aggregator or with the error variable -/

/-- A fresh program state: an empty aggregator, every error variable nil. -/
def freshState : State Unit String :=
  { c := { closers := [] }, errs := fun _ => none, ext := () }

/-- The registration `AppendFunc(f1, f2)`. -/
def twoFuncs : List Reg := [.appendFunc [some (.user 1), some (.user 2)]]

/-- Callbacks that all succeed, where callback `2` replaces the entries of the
aggregator: `*c = ioclose.Closers{}; c.AppendFunc(f3)`. -/
def replacingEnv : Env Unit String
  | 2, s => (Closers.AppendFunc [some (.user 3)] { s with c := { closers := [] } }, none)
  | _, s => (s, none)

/-- Callbacks that all succeed, where callback `2` empties the aggregator:
`*c = ioclose.Closers{}`. -/
def resettingEnv : Env Unit String
  | 2, s => ({ s with c := { closers := [] } }, none)
  | _, s => (s, none)

/-- Callbacks where callback `2` sets the error variable at address `0` to nil
and fails with `E2`: `err = nil; return E2`. -/
def slotWritingEnv : Env Unit String
  | 2, s => ({ s with errs := Function.update s.errs 0 none }, some "E2")
  | _, s => (s, none)

/-- A program state where the error variable at address `0` already holds `E1`,
with `AppendFunc(f1, f2)` performed on the empty aggregator. -/
def failedState : State Unit String :=
  register twoFuncs { freshState with errs := Function.update freshState.errs 0 (some "E1") }

/-- The state of the example when `err` already holds `E1` before the deferred
close, with the four closers registered. -/
def exampleFailed : State (List String) String :=
  register exampleRegs { exampleInit with errs := Function.update exampleInit.errs 0 (some "E1") }

/-! ## Wrapped functions, and callbacks that append -/

/-- The caller code that a function value ends up running, if any: the method
value `CloserFunc(fn).Close` runs what `fn` runs, and `CloserFunc(nil).Close`
runs nothing. -/
def Func.target : Func → Option Nat
  | .user id => some id
  | .closerFuncNil => none
  | .closerFunc fn => fn.target

/-- The calls of caller code behind a log: every logged call that ends up
running caller code, with the handle of that code and the error returned. -/
def userCalls {ε : Type} (evs : List (Event ε)) : List (Nat × Option ε) :=
  evs.filterMap fun ev => ev.fn.target.map fun id => (id, ev.res)

/-- No callback reads or writes the aggregator: running a callback commutes
with putting any other aggregator in the state. -/
def IgnoresAggregator {σ ε : Type} (env : Env σ ε) : Prop :=
  ∀ id s c, env id { s with c := c } = ({ (env id s).1 with c := c }, (env id s).2)

/-- No callback writes an element of the slice. -/
def KeepsSlice {σ ε : Type} (env : Env σ ε) (closers : Slice σ ε) : Prop :=
  ∀ id s i, closers.get (env id s).1 i = closers.get s i

/-- The error that a callback returns does not depend on the program state in
which it runs. -/
def StateFreeResult {σ ε : Type} (env : Env σ ε) : Prop :=
  ∀ id s s', (env id s).2 = (env id s').2

/-- The argument list `c1, c2` of two closers of caller types. -/
def twoClosers : List (Option Closer) := [some (.obj 1), some (.obj 2)]

/-- The argument list `CloserFunc(f1), ..., CloserFunc(fn)` for the functions
`f1, ..., fn`, each possibly nil. -/
def wrapAll (fs : List (Option Func)) : List (Option Closer) :=
  fs.map fun f => some (Closer.closerFunc f)

/-- Callbacks that all succeed, where callback `2` registers the new closer
`g`, of handle `9`, on the same aggregator: `c.AppendFunc(g)`. -/
def appendingEnv : Env Unit String
  | 2, s => (Closers.AppendFunc [some (.user 9)] s, none)
  | _, s => (s, none)

/-! ## Callbacks that write the slice passed to `CloseAll`, and a closer that
fails when closed again -/

/-- The caller's slice `s` of length `n`, held in the caller's state, passed as
`CloseAll(s...)`. -/
def callerSlice (n : Nat) : Slice (List (Option Closer)) String :=
  { len := n, get := fun s i => (s.ext[i]?).join }

/-- A program state with an empty aggregator where the caller's slice is
`s = [c1, c2]`. -/
def sliceState : State (List (Option Closer)) String :=
  { c := { closers := [] }, errs := fun _ => none, ext := twoClosers }

/-- Callbacks that all succeed, where the `Close` method of `c1` does
`s[1] = nil`. -/
def sliceClearingEnv : Env (List (Option Closer)) String
  | 1, s => ({ s with ext := s.ext.set 1 none }, none)
  | _, s => (s, none)

/-- Callbacks where the `Close` method of `c1` does `s[1] = c4` and succeeds,
the one of `c4` fails with `E4`, and all others succeed. -/
def sliceWritingEnv : Env (List (Option Closer)) String
  | 1, s => ({ s with ext := s.ext.set 1 (some (.obj 4)) }, none)
  | 4, s => (s, some "E4")
  | _, s => (s, none)

/-- Callbacks where the `Close` method of `c1` succeeds the first time it is
called and fails afterwards, as closing a file twice does; the caller's state
records whether it has been called. -/
def secondCallEnv : Env Bool String
  | 1, s => ({ s with ext := true }, if s.ext then some "already closed" else none)
  | _, s => (s, none)

/-- A fresh program state for `secondCallEnv`: an empty aggregator, `c1` not
closed yet. -/
def unclosedState : State Bool String :=
  { c := { closers := [] }, errs := fun _ => none, ext := false }

/-! ## Lemmas on the building blocks -/

section Lemmas

variable {σ ε : Type}

@[simp] theorem keepFirst_none (e : Option ε) : keepFirst none e = e := by
  cases e <;> rfl

@[simp] theorem keepFirst_some (x : ε) (e : Option ε) : keepFirst (some x) e = some x := by
  cases e <;> rfl

theorem keepFirst_or (err e rest : Option ε) :
    (keepFirst err e).or rest = err.or (e.or rest) := by
  cases err <;> cases e <;> simp

@[simp] theorem firstErr_nil : firstErr ([] : List (Option ε)) = none := rfl

@[simp] theorem firstErr_cons (e : Option ε) (rest : List (Option ε)) :
    firstErr (e :: rest) = e.or (firstErr rest) := by
  cases e <;> simp [firstErr]

theorem firstErr_eq_none_iff (l : List (Option ε)) :
    firstErr l = none ↔ ∀ e ∈ l, e = none := by
  induction l with
  | nil => simp
  | cons e rest ih => cases e <;> simp [ih]

/-- The first non-nil error of a log is nil exactly when every logged call
returned nil. -/
theorem firstErr_res_none_iff (evs : List (Event ε)) :
    firstErr (evs.map Event.res) = none ↔ ∀ ev ∈ evs, ev.res = none := by
  rw [firstErr_eq_none_iff]
  simp

/-- When the first non-nil error of a log is `e`, some logged call returned `e`
and every call logged before it returned nil. -/
theorem firstErr_res_some (evs : List (Event ε)) (e : ε)
    (h : firstErr (evs.map Event.res) = some e) :
    ∃ pre ev post, evs = pre ++ ev :: post ∧ (∀ x ∈ pre, x.res = none) ∧ ev.res = some e := by
  induction evs with
  | nil => simp at h
  | cons a rest ih =>
    cases hres : a.res with
    | none =>
      simp [hres] at h
      obtain ⟨pre, ev, post, h1, h2, h3⟩ := ih h
      refine ⟨a :: pre, ev, post, by simp [h1], ?_, h3⟩
      intro x hx
      simp at hx
      rcases hx with rfl | hx
      · exact hres
      · exact h2 x hx
    | some y =>
      simp [hres] at h
      subst h
      exact ⟨[], a, rest, by simp, by simp, hres⟩

@[simp] theorem invoke_trace (env : Env σ ε) (f : Func) (r : Run σ ε) :
    (invoke env f r).1.trace = r.trace ++ [⟨f, (f.call env r.st).2⟩] := rfl

@[simp] theorem invoke_st (env : Env σ ε) (f : Func) (r : Run σ ε) :
    (invoke env f r).1.st = (f.call env r.st).1 := rfl

@[simp] theorem invoke_res (env : Env σ ε) (f : Func) (r : Run σ ε) :
    (invoke env f r).2 = (f.call env r.st).2 := rfl

/-- A relation between the state before and after that every callback respects,
and that holds of a state with itself, is respected by every function value. -/
theorem Func.call_rel (env : Env σ ε) (R : State σ ε → State σ ε → Prop)
    (hrefl : ∀ s, R s s) (henv : ∀ id s, R s (env id s).1) :
    ∀ (f : Func) (s : State σ ε), R s (f.call env s).1 := by
  intro f
  induction f with
  | user id => intro s; exact henv id s
  | closerFuncNil => intro s; exact hrefl s
  | closerFunc fn ih => intro s; exact ih s

theorem Func.call_keepsEntries (env : Env σ ε) (h : KeepsEntries env) (f : Func)
    (s : State σ ε) : ∃ t, (f.call env s).1.c.closers = s.c.closers ++ t :=
  Func.call_rel env (fun s s' => ∃ t, s'.c.closers = s.c.closers ++ t)
    (fun _ => ⟨[], by simp⟩) h f s

theorem Func.call_keepsErr (env : Env σ ε) (p : Nat) (h : KeepsErr env p) (f : Func)
    (s : State σ ε) : (f.call env s).1.errs p = s.errs p :=
  Func.call_rel env (fun s s' => s'.errs p = s.errs p) (fun _ => rfl) h f s

theorem KeepsAggregator.keepsEntries {env : Env σ ε} (h : KeepsAggregator env) :
    KeepsEntries env := by
  intro id s
  exact ⟨[], by simp [h id s]⟩

/-- The log and the result of a sequence of calls: one event per function, in
order, and the accumulated error is the first non-nil one. -/
theorem invokeAll_spec (env : Env σ ε) :
    ∀ (fs : List Func) (r : Run σ ε) (err : Option ε),
      ∃ evs, (invokeAll env fs r err).1.trace = r.trace ++ evs ∧
        evs.map Event.fn = fs ∧
        (invokeAll env fs r err).2 = err.or (firstErr (evs.map Event.res)) := by
  intro fs
  induction fs with
  | nil => intro r err; exact ⟨[], by simp [invokeAll]⟩
  | cons f fs ih =>
    intro r err
    obtain ⟨evs, h1, h2, h3⟩ := ih (invoke env f r).1 (keepFirst err (invoke env f r).2)
    refine ⟨⟨f, (f.call env r.st).2⟩ :: evs, ?_, ?_, ?_⟩
    · simp only [invokeAll]
      rw [h1]
      simp
    · simp [h2]
    · simp only [invokeAll]
      rw [h3]
      simp [keepFirst_or]

/-- The close loop when no callback removes or replaces an entry: starting at
counter `k` over entries `l`, it calls the non-nil entries among the first `k`,
last one first, and does not fail. -/
theorem Closers.Close.loop_eq (env : Env σ ε) (h : KeepsEntries env)
    (l : List (Option Func)) :
    ∀ (k : Nat) (r : Run σ ε) (err : Option ε), k ≤ l.length →
      (∃ t, r.st.c.closers = l ++ t) →
      Closers.Close.loop env k r err =
        some (invokeAll env ((l.take k).reverse.filterMap id) r err) := by
  intro k
  induction k with
  | zero => intro r err _ _; simp [Closers.Close.loop, invokeAll]
  | succ k ih =>
    intro r err hk ht
    obtain ⟨t, ht⟩ := ht
    have hlt : k < l.length := hk
    have hget : r.st.c.closers[k]? = some l[k] := by
      rw [ht, List.getElem?_append_left hlt, List.getElem?_eq_getElem hlt]
    have htake : l.take (k + 1) = l.take k ++ [l[k]] := by
      rw [List.take_succ, List.getElem?_eq_getElem hlt]
      rfl
    simp only [Closers.Close.loop]
    rw [hget, htake]
    cases hx : l[k] with
    | none =>
      simp only [List.reverse_append, List.reverse_cons, List.reverse_nil, List.nil_append,
        List.singleton_append, List.filterMap_cons, id]
      exact ih r err (Nat.le_of_lt hlt) ⟨t, ht⟩
    | some f =>
      simp only [List.reverse_append, List.reverse_cons, List.reverse_nil, List.nil_append,
        List.singleton_append, List.filterMap_cons, id, invokeAll]
      apply ih _ _ (Nat.le_of_lt hlt)
      obtain ⟨t', ht'⟩ := Func.call_keepsEntries env h f r.st
      exact ⟨t ++ t', by simp [ht', ht]⟩

/-- Whenever the close loop returns, what it appended to the log accounts for
its result: the first non-nil error among the calls it made. -/
theorem Closers.Close.loop_log (env : Env σ ε) :
    ∀ (k : Nat) (r : Run σ ε) (err : Option ε) (r' : Run σ ε) (err' : Option ε),
      Closers.Close.loop env k r err = some (r', err') →
      ∃ evs, r'.trace = r.trace ++ evs ∧ err' = err.or (firstErr (evs.map Event.res)) := by
  intro k
  induction k with
  | zero =>
    intro r err r' err' hrun
    simp only [Closers.Close.loop, Option.some.injEq, Prod.mk.injEq] at hrun
    obtain ⟨rfl, rfl⟩ := hrun
    exact ⟨[], by simp⟩
  | succ k ih =>
    intro r err r' err' hrun
    simp only [Closers.Close.loop] at hrun
    split at hrun
    · simp at hrun
    · exact ih r err r' err' hrun
    · rename_i f _
      obtain ⟨evs, h1, h2⟩ := ih _ _ r' err' hrun
      refine ⟨⟨f, (f.call env r.st).2⟩ :: evs, ?_, ?_⟩
      · rw [h1]; simp
      · rw [h2]; simp [keepFirst_or]

/-- Whenever the close loop returns, a reflexive and transitive relation that
every callback respects holds between the state before and the state after. -/
theorem Closers.Close.loop_rel (env : Env σ ε) (R : State σ ε → State σ ε → Prop)
    (hrefl : ∀ s, R s s) (htrans : ∀ s t u, R s t → R t u → R s u)
    (henv : ∀ id s, R s (env id s).1) :
    ∀ (k : Nat) (r : Run σ ε) (err : Option ε) (r' : Run σ ε) (err' : Option ε),
      Closers.Close.loop env k r err = some (r', err') → R r.st r'.st := by
  intro k
  induction k with
  | zero =>
    intro r err r' err' hrun
    simp only [Closers.Close.loop, Option.some.injEq, Prod.mk.injEq] at hrun
    obtain ⟨rfl, rfl⟩ := hrun
    exact hrefl _
  | succ k ih =>
    intro r err r' err' hrun
    simp only [Closers.Close.loop] at hrun
    split at hrun
    · simp at hrun
    · exact ih r err r' err' hrun
    · rename_i f _
      exact htrans _ _ _ (Func.call_rel env R hrefl henv f r.st) (ih _ _ r' err' hrun)

/-- A close pass when no callback removes or replaces an entry: it returns, it
has called the non-nil entries once each, last one first, its result is the
first non-nil error among these calls, and the aggregator is left empty with
the rest of the state as the last callback left it. -/
theorem Closers.Close_spec (env : Env σ ε) (h : KeepsEntries env) (r : Run σ ε) :
    ∃ r' err evs, Closers.Close env r = some (r', err) ∧
      r'.trace = r.trace ++ evs ∧
      evs.map Event.fn = (r.st.c.closers.filterMap id).reverse ∧
      err = firstErr (evs.map Event.res) ∧
      r'.st.c.closers = [] := by
  have hloop := Closers.Close.loop_eq env h r.st.c.closers r.st.c.closers.length r none
    (Nat.le_refl _) ⟨[], by simp⟩
  obtain ⟨evs, h1, h2, h3⟩ :=
    invokeAll_spec env ((r.st.c.closers.take r.st.c.closers.length).reverse.filterMap id) r none
  generalize hout : invokeAll env
    ((r.st.c.closers.take r.st.c.closers.length).reverse.filterMap id) r none = out at *
  refine ⟨{ out.1 with st := { out.1.st with c := { closers := [] } } }, out.2, evs,
    ?_, ?_, ?_, ?_, ?_⟩
  · simp only [Closers.Close, hloop]
  · exact h1
  · rw [h2, List.take_length, List.filterMap_reverse]
  · rw [h3]; simp
  · rfl

/-- Whenever a close pass returns, the aggregator is empty, the calls it logged
account for its result, and a reflexive and transitive relation on the state
outside the aggregator that every callback respects holds across the pass. -/
theorem Closers.Close_log (env : Env σ ε) (r r' : Run σ ε) (err : Option ε)
    (hrun : Closers.Close env r = some (r', err)) :
    r'.st.c.closers = [] ∧
      ∃ evs, r'.trace = r.trace ++ evs ∧ err = firstErr (evs.map Event.res) := by
  unfold Closers.Close at hrun
  split at hrun
  · simp at hrun
  · rename_i r1 err1 hloop
    simp only [Option.some.injEq, Prod.mk.injEq] at hrun
    obtain ⟨rfl, rfl⟩ := hrun
    obtain ⟨evs, h1, h2⟩ := Closers.Close.loop_log env _ _ _ _ _ hloop
    exact ⟨rfl, evs, h1, by rw [h2]; simp⟩

/-- Whenever a close pass returns, an error variable that no callback changes
holds what it held before. -/
theorem Closers.Close_errs (env : Env σ ε) (p : Nat) (hK : KeepsErr env p)
    (r r' : Run σ ε) (err : Option ε) (hrun : Closers.Close env r = some (r', err)) :
    r'.st.errs p = r.st.errs p := by
  unfold Closers.Close at hrun
  split at hrun
  · simp at hrun
  · rename_i r1 err1 hloop
    simp only [Option.some.injEq, Prod.mk.injEq] at hrun
    obtain ⟨rfl, rfl⟩ := hrun
    exact Closers.Close.loop_rel env (fun s s' => s'.errs p = s.errs p) (fun _ => rfl)
      (fun _ _ _ h1 h2 => h2.trans h1) hK _ r none r1 err1 hloop

/-- A close pass on an empty aggregator calls nothing and returns nil. -/
theorem Closers.Close_empty (env : Env σ ε) (r : Run σ ε) (h : r.st.c.closers = []) :
    Closers.Close env r = some (r, none) := by
  obtain ⟨⟨⟨cl⟩, errs, ext⟩, tr⟩ := r
  simp only at h
  subst h
  rfl

theorem Closers.Append_closers (args : List (Option Closer)) (s : State σ ε) :
    (Closers.Append args s).c.closers =
      s.c.closers ++ ((args.filterMap id).map Closer.Close).map some := by
  induction args generalizing s with
  | nil => simp [Closers.Append]
  | cons a rest ih => cases a <;> simp [Closers.Append, ih]

theorem Closers.AppendFunc_closers (args : List (Option Func)) (s : State σ ε) :
    (Closers.AppendFunc args s).c.closers = s.c.closers ++ (args.filterMap id).map some := by
  induction args generalizing s with
  | nil => simp [Closers.AppendFunc]
  | cons a rest ih => cases a <;> simp [Closers.AppendFunc, ih]

theorem Reg.run_closers (op : Reg) (s : State σ ε) :
    (op.run s).c.closers = s.c.closers ++ op.entries.map some := by
  cases op with
  | append cs => exact Closers.Append_closers cs s
  | appendFunc fs => exact Closers.AppendFunc_closers fs s

theorem register_closers (ops : List Reg) (s : State σ ε) :
    (register ops s).c.closers = s.c.closers ++ (registered ops).map some := by
  induction ops generalizing s with
  | nil => simp [register, registered]
  | cons op ops ih => simp [register, registered, ih, Reg.run_closers]

theorem filterMap_id_map_some {α : Type} (l : List α) : (l.map some).filterMap id = l := by
  induction l with
  | nil => rfl
  | cons a l ih => simp [ih]

theorem filterMap_id_length {α : Type} (l : List (Option α)) :
    (l.filterMap id).length = (l.filter Option.isSome).length := by
  induction l with
  | nil => rfl
  | cons a l ih => cases a <;> simp [ih]

/-- When no callback writes the slice, a function value leaves its elements as
they are. -/
theorem Func.call_keepsSlice (env : Env σ ε) (closers : Slice σ ε)
    (h : KeepsSlice env closers) (f : Func) (s : State σ ε) (i : Nat) :
    closers.get (f.call env s).1 i = closers.get s i :=
  Func.call_rel env (fun s s' => ∀ i, closers.get s' i = closers.get s i) (fun _ _ => rfl)
    (fun id s i => h id s i) f s i

/-- The loop of `CloseAll` when no callback writes the slice, whose elements at
entry are those of `l`: from index `i`, with `k` iterations left, it calls the
`Close` method of the non-nil elements among `l[i], ..., l[i + k - 1]`, in
order. -/
theorem CloseAll.loop_invokeAll (env : Env σ ε) (closers : Slice σ ε)
    (hS : KeepsSlice env closers) (l : List (Option Closer)) :
    ∀ (k i : Nat) (r : Run σ ε) (err : Option ε),
      (∀ j, closers.get r.st j = (l[j]?).join) →
      CloseAll.loop env closers i k r err =
        invokeAll env ((((l.drop i).take k).filterMap id).map Closer.Close) r err := by
  intro k
  induction k with
  | zero => intro i r err _; simp [CloseAll.loop, invokeAll]
  | succ k ih =>
    intro i r err hget
    simp only [CloseAll.loop]
    rw [hget i]
    by_cases hi : i < l.length
    · rw [List.getElem?_eq_getElem hi, List.drop_eq_getElem_cons hi, List.take_succ_cons]
      cases hx : l[i] with
      | none =>
        simp only [Option.join, List.filterMap_cons, id]
        exact ih (i + 1) r err hget
      | some c =>
        simp only [Option.join, List.filterMap_cons, id, List.map_cons, invokeAll]
        apply ih
        intro j
        rw [invoke_st, Func.call_keepsSlice env closers hS]
        exact hget j
    · have hnone : l[i]? = none := List.getElem?_eq_none (Nat.le_of_not_lt hi)
      have hdrop : l.drop i = [] := List.drop_eq_nil_of_le (Nat.le_of_not_lt hi)
      have hdrop' : l.drop (i + 1) = [] :=
        List.drop_eq_nil_of_le (Nat.le_succ_of_le (Nat.le_of_not_lt hi))
      rw [hnone, hdrop]
      have h1 := ih (i + 1) r err hget
      rw [hdrop'] at h1
      simpa [Option.join] using h1

/-- The function `CloseAll` when no callback writes the slice, whose elements at
entry are those of `l`: it calls the `Close` method of the non-nil elements of
`l`, in order. -/
theorem CloseAll_invokeAll (env : Env σ ε) (closers : Slice σ ε)
    (hS : KeepsSlice env closers) (l : List (Option Closer)) (r : Run σ ε)
    (hlen : closers.len = l.length) (hget : ∀ j, closers.get r.st j = (l[j]?).join) :
    CloseAll env closers r = invokeAll env ((l.filterMap id).map Closer.Close) r none := by
  rw [CloseAll, CloseAll.loop_invokeAll env closers hS l _ 0 r none hget, hlen,
    List.drop_zero, List.take_length]

theorem Slice.ofList_keepsSlice (env : Env σ ε) (args : List (Option Closer)) :
    KeepsSlice env (Slice.ofList args) :=
  fun _ _ _ => rfl

theorem Closers.Append_filter (args : List (Option Closer)) (s : State σ ε) :
    Closers.Append args s = Closers.Append (args.filter Option.isSome) s := by
  induction args generalizing s with
  | nil => rfl
  | cons a rest ih =>
    cases a with
    | none => simpa [Closers.Append] using ih s
    | some cl => simpa [Closers.Append] using ih _

theorem Closers.AppendFunc_filter (args : List (Option Func)) (s : State σ ε) :
    Closers.AppendFunc args s = Closers.AppendFunc (args.filter Option.isSome) s := by
  induction args generalizing s with
  | nil => rfl
  | cons a rest ih =>
    cases a with
    | none => simpa [Closers.AppendFunc] using ih s
    | some f => simpa [Closers.AppendFunc] using ih _

theorem Reg.run_onlyNil (op : Reg) (h : op.onlyNil = true) (s : State σ ε) : op.run s = s := by
  cases op with
  | append cs =>
    simp only [Reg.onlyNil] at h
    simp only [Reg.run]
    induction cs with
    | nil => rfl
    | cons a rest ih =>
      cases a with
      | none => exact ih (by simpa using h)
      | some cl => simp at h
  | appendFunc fs =>
    simp only [Reg.onlyNil] at h
    simp only [Reg.run]
    induction fs with
    | nil => rfl
    | cons a rest ih =>
      cases a with
      | none => exact ih (by simpa using h)
      | some f => simp at h

theorem register_onlyNil (ops : List Reg) (h : ∀ op ∈ ops, op.onlyNil = true)
    (s : State σ ε) : register ops s = s := by
  induction ops with
  | nil => rfl
  | cons op ops ih =>
    simp only [register]
    rw [Reg.run_onlyNil op (h op (by simp)) s]
    exact ih (fun o ho => h o (by simp [ho]))

theorem exampleEnv_keepsAggregator : KeepsAggregator exampleEnv := by
  intro id s
  unfold exampleEnv
  split <;> rfl

theorem exampleEnv_keepsErr (p : Nat) : KeepsErr exampleEnv p := by
  intro id s
  unfold exampleEnv
  split <;> rfl

/-- A function value does what the caller code behind it does, and nothing when
there is none. -/
theorem Func.call_target (env : Env σ ε) (f : Func) (s : State σ ε) :
    f.call env s = match f.target with
      | none => (s, none)
      | some id => env id s := by
  induction f with
  | user id => rfl
  | closerFuncNil => rfl
  | closerFunc fn ih => simpa [Func.call, Func.target] using ih

theorem Func.call_setC (env : Env σ ε) (h : IgnoresAggregator env) (f : Func)
    (s : State σ ε) (c : Closers) :
    f.call env { s with c := c } = ({ (f.call env s).1 with c := c }, (f.call env s).2) := by
  induction f with
  | user id => exact h id s c
  | closerFuncNil => rfl
  | closerFunc fn ih => exact ih

theorem IgnoresAggregator.keepsAggregator {env : Env σ ε} (h : IgnoresAggregator env) :
    KeepsAggregator env := by
  intro id s
  have h1 := congrArg (fun o => o.1.c) (h id s s.c)
  exact h1

theorem userCalls_append (a b : List (Event ε)) :
    userCalls (a ++ b) = userCalls a ++ userCalls b := by
  simp [userCalls, List.filterMap_append]

/-- The aggregator held by the state plays no part in a sequence of calls of
callbacks that ignore it. -/
theorem invokeAll_setC (env : Env σ ε) (h : IgnoresAggregator env) :
    ∀ (fs : List Func) (s : State σ ε) (c : Closers) (tr : List (Event ε)) (err : Option ε),
      invokeAll env fs ⟨{ s with c := c }, tr⟩ err =
        (⟨{ (invokeAll env fs ⟨s, tr⟩ err).1.st with c := c },
          (invokeAll env fs ⟨s, tr⟩ err).1.trace⟩, (invokeAll env fs ⟨s, tr⟩ err).2) := by
  intro fs
  induction fs with
  | nil => intro s c tr err; rfl
  | cons f fs ih =>
    intro s c tr err
    simp only [invokeAll, invoke, Func.call_setC env h f s c]
    exact ih _ c _ _

/-- A sequence of calls leaves the state and returns the error that the
sequence of the caller code behind it does, and the calls of caller code
behind the two logs are the same. -/
theorem invokeAll_userCalls (env : Env σ ε) :
    ∀ (fs : List Func) (r1 r2 : Run σ ε) (err : Option ε),
      r1.st = r2.st → userCalls r1.trace = userCalls r2.trace →
      (invokeAll env fs r1 err).1.st =
          (invokeAll env ((fs.filterMap Func.target).map Func.user) r2 err).1.st ∧
        (invokeAll env fs r1 err).2 =
          (invokeAll env ((fs.filterMap Func.target).map Func.user) r2 err).2 ∧
        userCalls (invokeAll env fs r1 err).1.trace =
          userCalls (invokeAll env ((fs.filterMap Func.target).map Func.user) r2 err).1.trace := by
  intro fs
  induction fs with
  | nil => intro r1 r2 err hst htr; exact ⟨hst, rfl, htr⟩
  | cons f fs ih =>
    intro r1 r2 err hst htr
    have hcall := Func.call_target env f r1.st
    cases ht : f.target with
    | none =>
      rw [ht] at hcall
      have hres : (invoke env f r1).2 = none := by
        rw [invoke_res, hcall]
      have hkeep : keepFirst err (none : Option ε) = err := by
        cases err <;> rfl
      simp only [invokeAll, List.filterMap_cons, ht]
      rw [hres, hkeep]
      apply ih
      · rw [invoke_st, hcall]
        exact hst
      · rw [invoke_trace, userCalls_append, htr]
        simp [userCalls, ht]
    | some id =>
      rw [ht] at hcall
      have hst2 : (invoke env f r1).1.st = (invoke env (Func.user id) r2).1.st := by
        rw [invoke_st, invoke_st, hcall, ← hst]
        rfl
      have hres : (invoke env f r1).2 = (invoke env (Func.user id) r2).2 := by
        rw [invoke_res, invoke_res, hcall, ← hst]
        rfl
      simp only [invokeAll, List.filterMap_cons, ht, List.map_cons]
      rw [hres]
      apply ih _ _ _ hst2
      rw [invoke_trace, invoke_trace, userCalls_append, userCalls_append, htr, hcall, ← hst]
      simp [userCalls, ht, Func.target, Func.call]

/-- A close pass when no callback removes or replaces an entry, as a sequence
of calls: the non-nil entries, last one first, then `c.closers = nil`. -/
theorem Closers.Close_eq (env : Env σ ε) (h : KeepsEntries env) (r : Run σ ε) :
    Closers.Close env r =
      some (⟨{ (invokeAll env (r.st.c.closers.filterMap id).reverse r none).1.st with
            c := { closers := [] } },
          (invokeAll env (r.st.c.closers.filterMap id).reverse r none).1.trace⟩,
        (invokeAll env (r.st.c.closers.filterMap id).reverse r none).2) := by
  have hloop := Closers.Close.loop_eq env h r.st.c.closers r.st.c.closers.length r none
    (Nat.le_refl _) ⟨[], by simp⟩
  rw [List.take_length, List.filterMap_reverse] at hloop
  simp only [Closers.Close, hloop]

theorem Closers.Append_frame (args : List (Option Closer)) (s : State σ ε) :
    Closers.Append args s = { s with c := (Closers.Append args s).c } := by
  induction args generalizing s with
  | nil => rfl
  | cons a rest ih =>
    cases a with
    | none => exact ih s
    | some cl =>
      simp only [Closers.Append]
      exact ih _

theorem Closers.AppendFunc_frame (args : List (Option Func)) (s : State σ ε) :
    Closers.AppendFunc args s = { s with c := (Closers.AppendFunc args s).c } := by
  induction args generalizing s with
  | nil => rfl
  | cons a rest ih =>
    cases a with
    | none => exact ih s
    | some f =>
      simp only [Closers.AppendFunc]
      exact ih _

theorem Reg.run_frame (op : Reg) (s : State σ ε) : op.run s = { s with c := (op.run s).c } := by
  cases op with
  | append cs => exact Closers.Append_frame cs s
  | appendFunc fs => exact Closers.AppendFunc_frame fs s

theorem register_frame (ops : List Reg) (s : State σ ε) :
    register ops s = { s with c := (register ops s).c } := by
  induction ops generalizing s with
  | nil => rfl
  | cons op ops ih =>
    simp only [register]
    have h1 := ih (op.run s)
    have h2 := Reg.run_frame op s
    rw [h1]
    rw [h2]

theorem Closers.Append_append (xs ys : List (Option Closer)) (s : State σ ε) :
    Closers.Append (xs ++ ys) s = Closers.Append ys (Closers.Append xs s) := by
  induction xs generalizing s with
  | nil => rfl
  | cons a rest ih =>
    cases a with
    | none => exact ih s
    | some cl => exact ih _

theorem Closers.AppendFunc_append (xs ys : List (Option Func)) (s : State σ ε) :
    Closers.AppendFunc (xs ++ ys) s = Closers.AppendFunc ys (Closers.AppendFunc xs s) := by
  induction xs generalizing s with
  | nil => rfl
  | cons a rest ih =>
    cases a with
    | none => exact ih s
    | some f => exact ih _

/-- A reflexive and transitive relation that every callback respects holds
between the state before and the state after a sequence of calls. -/
theorem invokeAll_rel (env : Env σ ε) (R : State σ ε → State σ ε → Prop)
    (hrefl : ∀ s, R s s) (htrans : ∀ s t u, R s t → R t u → R s u)
    (henv : ∀ id s, R s (env id s).1) :
    ∀ (fs : List Func) (r : Run σ ε) (err : Option ε),
      R r.st (invokeAll env fs r err).1.st := by
  intro fs
  induction fs with
  | nil => intro r err; exact hrefl _
  | cons f fs ih =>
    intro r err
    exact htrans _ _ _ (Func.call_rel env R hrefl henv f r.st)
      (ih (invoke env f r).1 (keepFirst err (invoke env f r).2))

theorem invokeAll_append (env : Env σ ε) :
    ∀ (a b : List Func) (r : Run σ ε) (err : Option ε),
      invokeAll env (a ++ b) r err =
        invokeAll env b (invokeAll env a r err).1 (invokeAll env a r err).2 := by
  intro a
  induction a with
  | nil => intro b r err; rfl
  | cons f a ih => intro b r err; exact ih b _ _

theorem wrapAll_targets (fs : List (Option Func)) :
    (((wrapAll fs).filterMap id).map Closer.Close).filterMap Func.target =
      (fs.filterMap id).filterMap Func.target := by
  induction fs with
  | nil => rfl
  | cons f fs ih =>
    have hstep : ((wrapAll (f :: fs)).filterMap id).map Closer.Close =
        (Closer.closerFunc f).Close :: ((wrapAll fs).filterMap id).map Closer.Close := rfl
    rw [hstep]
    cases f with
    | none =>
      show List.filterMap Func.target (Func.closerFuncNil :: _) = _
      rw [List.filterMap_cons]
      simpa [Func.target] using ih
    | some f =>
      show List.filterMap Func.target (Func.closerFunc f :: _) =
        List.filterMap Func.target (f :: _)
      rw [List.filterMap_cons, List.filterMap_cons]
      simp only [Func.target]
      rw [ih]

/-- A close pass with callbacks that ignore the aggregator, in terms of the
caller code behind the entries: it returns; the state it leaves, the error it
returns and the calls of caller code behind its log are those of calling that
code directly, last entry first, whatever the aggregator holds. -/
theorem Closers.Close_canonical (env : Env σ ε) (hI : IgnoresAggregator env)
    (s : State σ ε) (c : Closers) (tr : List (Event ε)) :
    ∃ r' err, Closers.Close env ⟨{ s with c := c }, tr⟩ = some (r', err) ∧
      r'.st = { (invokeAll env (((c.closers.filterMap id).reverse.filterMap
          Func.target).map Func.user) ⟨s, tr⟩ none).1.st with c := { closers := [] } } ∧
      err = (invokeAll env (((c.closers.filterMap id).reverse.filterMap
          Func.target).map Func.user) ⟨s, tr⟩ none).2 ∧
      userCalls r'.trace = userCalls (invokeAll env (((c.closers.filterMap id).reverse.filterMap
          Func.target).map Func.user) ⟨s, tr⟩ none).1.trace := by
  have hclose := Closers.Close_eq env hI.keepsAggregator.keepsEntries ⟨{ s with c := c }, tr⟩
  have hset := invokeAll_setC env hI (c.closers.filterMap id).reverse s c tr none
  obtain ⟨h1, h2, h3⟩ := invokeAll_userCalls env (c.closers.filterMap id).reverse
    ⟨s, tr⟩ ⟨s, tr⟩ none rfl rfl
  refine ⟨_, _, hclose, ?_, ?_, ?_⟩
  · simp only [hset, ← h1]
  · simp only [hset, ← h2]
  · simp only [hset, ← h3]

theorem getElem?_append_of_some {α : Type} (l t : List α) (i : Nat) (e : α)
    (h : l[i]? = some e) : (l ++ t)[i]? = some e := by
  have hlt : i < l.length := by
    by_contra hge
    rw [List.getElem?_eq_none (Nat.le_of_not_lt hge)] at h
    cases h
  rw [List.getElem?_append_left hlt]
  exact h

theorem exampleEnv_ignoresAggregator : IgnoresAggregator exampleEnv := by
  intro id s c
  unfold exampleEnv
  split <;> rfl

theorem appendingEnv_keepsEntries : KeepsEntries appendingEnv := by
  intro id s
  unfold appendingEnv
  split
  · exact ⟨[some (.user 9)], rfl⟩
  · exact ⟨[], by simp⟩

theorem Func.call_stateFree (env : Env σ ε) (h : StateFreeResult env) (f : Func)
    (s s' : State σ ε) : (f.call env s).2 = (f.call env s').2 := by
  induction f with
  | user id => exact h id s s'
  | closerFuncNil => rfl
  | closerFunc fn ih => exact ih

/-- When the errors that callbacks return do not depend on the state, a
sequence of calls logs the same events and returns the same error from any two
runs. -/
theorem invokeAll_stateFree (env : Env σ ε) (h : StateFreeResult env) :
    ∀ (fs : List Func) (r r' : Run σ ε) (err : Option ε),
      ∃ evs, (invokeAll env fs r err).1.trace = r.trace ++ evs ∧
        (invokeAll env fs r' err).1.trace = r'.trace ++ evs ∧
        (invokeAll env fs r err).2 = (invokeAll env fs r' err).2 := by
  intro fs
  induction fs with
  | nil => intro r r' err; exact ⟨[], by simp [invokeAll]⟩
  | cons f fs ih =>
    intro r r' err
    have hres : (invoke env f r').2 = (invoke env f r).2 := by
      rw [invoke_res, invoke_res]
      exact Func.call_stateFree env h f r'.st r.st
    obtain ⟨evs, h1, h2, h3⟩ :=
      ih (invoke env f r).1 (invoke env f r').1 (keepFirst err (invoke env f r).2)
    refine ⟨⟨f, (f.call env r.st).2⟩ :: evs, ?_, ?_, ?_⟩
    · simp only [invokeAll]
      rw [h1]
      simp
    · simp only [invokeAll]
      rw [hres, h2, invoke_trace, ← invoke_res env f r', hres]
      simp
    · simp only [invokeAll]
      rw [hres]
      exact h3

theorem exampleEnv_stateFreeResult : StateFreeResult exampleEnv := by
  intro id s s'
  unfold exampleEnv
  split <;> rfl

end Lemmas

/-! ## The close pass of the aggregator -/

section Claims

variable {σ ε : Type}

/-- C1: for an aggregator built from an empty one by any sequence of `Append`
and `AppendFunc` calls, with callbacks that do not touch the aggregator,
`Closers.Close` returns and has called each recorded entry exactly once,
whatever the callbacks return: the calls, read backwards, are the recorded
entries position by position, so every function is called as many times as it
is recorded, and the number of calls is the number of recorded entries. -/
theorem close_invokes_each_entry_once (env : Env σ ε) (hK : KeepsAggregator env)
    (ops : List Reg) (s0 : State σ ε) (h0 : s0.c.closers = []) (tr : List (Event ε)) :
    ∃ r' err evs, Closers.Close env ⟨register ops s0, tr⟩ = some (r', err) ∧
      r'.trace = tr ++ evs ∧
      (register ops s0).c.closers = ((evs.map Event.fn).reverse).map some ∧
      (evs.map Event.fn).Perm (registered ops) ∧
      (∀ f, (evs.map Event.fn).count f = (registered ops).count f) ∧
      evs.length = (register ops s0).c.closers.length := by
  obtain ⟨r', err, evs, h1, h2, h3, _, _⟩ :=
    Closers.Close_spec env hK.keepsEntries ⟨register ops s0, tr⟩
  have hreg : (register ops s0).c.closers = (registered ops).map some := by
    rw [register_closers, h0, List.nil_append]
  have hfn : evs.map Event.fn = (registered ops).reverse := by
    rw [h3]
    simp only [hreg, filterMap_id_map_some]
  have hperm : (evs.map Event.fn).Perm (registered ops) := by
    rw [hfn]
    exact List.reverse_perm _
  refine ⟨r', err, evs, h1, h2, ?_, hperm, fun f => hperm.count_eq f, ?_⟩
  · rw [hfn, List.reverse_reverse, hreg]
  · rw [hreg, List.length_map, ← hperm.length_eq, List.length_map]

/-- Witness of C1: the four closers of the example of the test file. -/
theorem close_invokes_each_entry_once_witness :
    ∃ r' err evs, Closers.Close exampleEnv ⟨register exampleRegs exampleInit, []⟩ =
        some (r', err) ∧
      r'.trace = [] ++ evs ∧
      (register exampleRegs exampleInit).c.closers = ((evs.map Event.fn).reverse).map some ∧
      (evs.map Event.fn).Perm (registered exampleRegs) ∧
      (∀ f, (evs.map Event.fn).count f = (registered exampleRegs).count f) ∧
      evs.length = (register exampleRegs exampleInit).c.closers.length :=
  close_invokes_each_entry_once exampleEnv exampleEnv_keepsAggregator exampleRegs exampleInit
    rfl []

/-- C2, as stated, fails: after `AppendFunc(f1, f2)` on an empty aggregator,
where `f2` replaces the entries of the aggregator by `f3`, `Closers.Close`
returns having called `f2` then `f3`, which is not the reverse `f2`, `f1` of
the registration order. -/
theorem close_order_replaced_entries :
    (registered twoFuncs).reverse = [.user 2, .user 1] ∧
      (Closers.Close replacingEnv ⟨register twoFuncs freshState, []⟩).map
        (fun o => o.1.trace.map Event.fn) = some [.user 2, .user 3] := by
  decide

/-- C2, amended: for every sequence of `Append` and `AppendFunc` calls on an
initially empty aggregator, interleaved in any way, with callbacks that never
remove or replace an entry of the aggregator, `Closers.Close` returns and the
callbacks it has called are, in order, the non-nil registered entries in
reverse registration order. -/
theorem close_order_reverse (env : Env σ ε) (hK : KeepsEntries env)
    (ops : List Reg) (s0 : State σ ε) (h0 : s0.c.closers = []) (tr : List (Event ε)) :
    ∃ r' err evs, Closers.Close env ⟨register ops s0, tr⟩ = some (r', err) ∧
      r'.trace = tr ++ evs ∧
      evs.map Event.fn = (registered ops).reverse := by
  obtain ⟨r', err, evs, h1, h2, h3, _, _⟩ := Closers.Close_spec env hK ⟨register ops s0, tr⟩
  refine ⟨r', err, evs, h1, h2, ?_⟩
  rw [h3]
  simp only [register_closers, h0, List.nil_append, filterMap_id_map_some]

/-- Witness of C2: `closer1`, `closer2`, `closer3` registered with `Append` and
`closer4` with `AppendFunc` are called in the order `closer4`, `closer3`,
`closer2`, `closer1`. -/
theorem close_order_reverse_witness :
    ∃ r' err evs, Closers.Close exampleEnv ⟨register exampleRegs exampleInit, []⟩ =
        some (r', err) ∧
      r'.trace = [] ++ evs ∧
      evs.map Event.fn = [.user 4, .user 3, .user 2, .user 1] :=
  close_order_reverse exampleEnv exampleEnv_keepsAggregator.keepsEntries exampleRegs
    exampleInit rfl []

/-- C3, as stated, fails: after `AppendFunc(f1, f2)` on an empty aggregator,
where every callback returns nil and `f2` empties the aggregator,
`Closers.Close` does not return nil: it does not return (the read of
`c.closers[0]` after the call of `f2` is out of range). -/
theorem close_result_reset_aggregator :
    (∀ id s, (resettingEnv id s).2 = none) ∧
      (Closers.Close resettingEnv ⟨register twoFuncs freshState, []⟩).isSome = false := by
  refine ⟨?_, by decide⟩
  intro id s
  unfold resettingEnv
  split <;> rfl

/-- C3, amended: for every aggregator whose callbacks never remove or replace
an entry of the aggregator, `Closers.Close` returns; its result is nil if and
only if every call it made returned nil; otherwise it is the error returned by
the first failing call, and the calls are the entries last appended first, so
that is the failing callback appended last. -/
theorem close_result_first_failure (env : Env σ ε) (hK : KeepsEntries env) (r : Run σ ε) :
    ∃ r' err evs, Closers.Close env r = some (r', err) ∧
      r'.trace = r.trace ++ evs ∧
      evs.map Event.fn = (r.st.c.closers.filterMap id).reverse ∧
      (err = none ↔ ∀ ev ∈ evs, ev.res = none) ∧
      (∀ e, err = some e →
        ∃ pre ev post, evs = pre ++ ev :: post ∧ (∀ x ∈ pre, x.res = none) ∧
          ev.res = some e) := by
  obtain ⟨r', err, evs, h1, h2, h3, h4, _⟩ := Closers.Close_spec env hK r
  refine ⟨r', err, evs, h1, h2, h3, ?_, ?_⟩
  · rw [h4]
    exact firstErr_res_none_iff evs
  · intro e he
    exact firstErr_res_some evs e (h4 ▸ he)

/-- Witness of C3: in the example, `Closers.Close` returns the error of
`closer2`, the only failing callback. -/
theorem close_result_first_failure_witness :
    ∃ r' err evs, Closers.Close exampleEnv ⟨register exampleRegs exampleInit, []⟩ =
        some (r', err) ∧
      r'.trace = [] ++ evs ∧
      evs.map Event.fn = [.user 4, .user 3, .user 2, .user 1] ∧
      (err = none ↔ ∀ ev ∈ evs, ev.res = none) ∧
      (∀ e, err = some e →
        ∃ pre ev post, evs = pre ++ ev :: post ∧ (∀ x ∈ pre, x.res = none) ∧
          ev.res = some e) :=
  close_result_first_failure exampleEnv exampleEnv_keepsAggregator.keepsEntries
    ⟨register exampleRegs exampleInit, []⟩

/-- C4: for every aggregator state, `Closers.Close` returns when no callback
removes or replaces an entry of the aggregator, and whenever it returns the
aggregator holds no entry and a second `Close` right afterwards returns nil,
calls nothing and changes nothing. -/
theorem close_twice (env : Env σ ε) (r : Run σ ε) :
    (KeepsEntries env → ∃ r' err, Closers.Close env r = some (r', err)) ∧
      ∀ r' err, Closers.Close env r = some (r', err) →
        r'.st.c.closers = [] ∧ Closers.Close env r' = some (r', none) := by
  constructor
  · intro hK
    obtain ⟨r', err, _, h1, _⟩ := Closers.Close_spec env hK r
    exact ⟨r', err, h1⟩
  · intro r' err hrun
    have hempty := (Closers.Close_log env r r' err hrun).1
    exact ⟨hempty, Closers.Close_empty env r' hempty⟩

/-- Witness of C4: in the example, the first `Close` returns and empties the
aggregator, and the second one returns nil and leaves the run as it is. -/
theorem close_twice_witness :
    ∃ r' err, Closers.Close exampleEnv ⟨register exampleRegs exampleInit, []⟩ =
        some (r', err) ∧
      r'.st.c.closers = [] ∧ Closers.Close exampleEnv r' = some (r', none) := by
  obtain ⟨r', err, hrun⟩ :=
    (close_twice exampleEnv ⟨register exampleRegs exampleInit, []⟩).1
      exampleEnv_keepsAggregator.keepsEntries
  exact ⟨r', err, hrun,
    (close_twice exampleEnv ⟨register exampleRegs exampleInit, []⟩).2 r' err hrun⟩

/-! ## `CloseAll` -/

/-- C5, as stated, fails: in `CloseAll(s...)` with `s = [c1, c2]`, both non-nil,
where the `Close` method of `c1` does `s[1] = nil`, `CloseAll` calls `c1` only:
the non-nil argument `c2` is never called. -/
theorem closeAll_slice_entry_cleared :
    (callerSlice 2).get sliceState 0 = some (.obj 1) ∧
      (callerSlice 2).get sliceState 1 = some (.obj 2) ∧
      (CloseAll sliceClearingEnv (callerSlice 2) ⟨sliceState, []⟩).1.trace.map Event.fn =
        [.user 1] := by
  decide

/-- C5, amended: for every argument slice of `CloseAll`, possibly empty and
possibly with nil entries, that no callback writes while `CloseAll` runs, and
whatever the callbacks return, the calls that `CloseAll` makes are exactly the
`Close` methods of the entries that are non-nil at entry, once each, in
argument order. -/
theorem closeAll_invokes_in_order (env : Env σ ε) (closers : Slice σ ε)
    (hS : KeepsSlice env closers) (l : List (Option Closer)) (r : Run σ ε)
    (hlen : closers.len = l.length) (hget : ∀ j, closers.get r.st j = (l[j]?).join) :
    ∃ evs, (CloseAll env closers r).1.trace = r.trace ++ evs ∧
      evs.map Event.fn = (l.filterMap id).map Closer.Close ∧
      evs.length = (l.filter Option.isSome).length := by
  obtain ⟨evs, h1, h2, _⟩ :=
    invokeAll_spec env ((l.filterMap id).map Closer.Close) r none
  refine ⟨evs, ?_, h2, ?_⟩
  · rw [CloseAll_invokeAll env closers hS l r hlen hget]
    exact h1
  · have hcount := congrArg List.length h2
    rw [List.length_map, List.length_map] at hcount
    rw [hcount]
    exact filterMap_id_length l

/-- Witness of C5: `CloseAll(c1, c2, c3)` with `c1` and `c3` succeeding and `c2`
failing calls `c1`, `c2`, `c3`, in that order. -/
theorem closeAll_invokes_in_order_witness :
    (CloseAll exampleEnv (Slice.ofList [some (.obj 1), some (.obj 2), some (.obj 3)])
        ⟨exampleInit, []⟩).1.trace =
      [⟨.user 1, none⟩, ⟨.user 2, some "closer2"⟩, ⟨.user 3, none⟩] ∧
    ∃ evs, (CloseAll exampleEnv
          (Slice.ofList [some (.obj 1), some (.obj 2), some (.obj 3)])
          ⟨exampleInit, []⟩).1.trace = [] ++ evs ∧
      evs.map Event.fn = [.user 1, .user 2, .user 3] ∧
      evs.length = 3 :=
  ⟨by decide,
    closeAll_invokes_in_order exampleEnv
      (Slice.ofList [some (.obj 1), some (.obj 2), some (.obj 3)])
      (Slice.ofList_keepsSlice exampleEnv _) [some (.obj 1), some (.obj 2), some (.obj 3)]
      ⟨exampleInit, []⟩ rfl (fun _ => rfl)⟩

/-- C6, as stated, fails: in `CloseAll(s...)` with `s = [c1, c2]`, where the
`Close` methods of `c1` and `c2` always return nil and the one of `c1` does
`s[1] = c4`, `CloseAll` returns the error `E4` of `c4`. -/
theorem closeAll_slice_entry_written :
    (callerSlice 2).get sliceState 0 = some (.obj 1) ∧
      (callerSlice 2).get sliceState 1 = some (.obj 2) ∧
      (∀ s, (sliceWritingEnv 1 s).2 = none) ∧ (∀ s, (sliceWritingEnv 2 s).2 = none) ∧
      (CloseAll sliceWritingEnv (callerSlice 2) ⟨sliceState, []⟩).2 = some "E4" := by
  refine ⟨by decide, by decide, fun _ => rfl, fun _ => rfl, by decide⟩

/-- C6, amended: for every argument slice of `CloseAll` that no callback writes
while `CloseAll` runs, the calls made are those of the entries non-nil at
entry, in argument order; the result is nil if and only if every one of these
calls returned nil; otherwise it is the error returned by the earliest failing
call; with no argument, or nil arguments only, nothing is called and the
result is nil. -/
theorem closeAll_result_first_failure (env : Env σ ε) (closers : Slice σ ε)
    (hS : KeepsSlice env closers) (l : List (Option Closer)) (r : Run σ ε)
    (hlen : closers.len = l.length) (hget : ∀ j, closers.get r.st j = (l[j]?).join) :
    (∃ evs, (CloseAll env closers r).1.trace = r.trace ++ evs ∧
      evs.map Event.fn = (l.filterMap id).map Closer.Close ∧
      ((CloseAll env closers r).2 = none ↔ ∀ ev ∈ evs, ev.res = none) ∧
      (∀ e, (CloseAll env closers r).2 = some e →
        ∃ pre ev post, evs = pre ++ ev :: post ∧ (∀ x ∈ pre, x.res = none) ∧
          ev.res = some e)) ∧
    ((∀ c ∈ l, c = none) → CloseAll env closers r = (r, none)) := by
  have hall := CloseAll_invokeAll env closers hS l r hlen hget
  constructor
  · obtain ⟨evs, h1, h2, h3⟩ :=
      invokeAll_spec env ((l.filterMap id).map Closer.Close) r none
    simp only [Option.none_or] at h3
    refine ⟨evs, ?_, h2, ?_, ?_⟩
    · rw [hall]
      exact h1
    · rw [hall, h3]
      exact firstErr_res_none_iff evs
    · intro e he
      rw [hall, h3] at he
      exact firstErr_res_some evs e he
  · intro hnil
    have hfm : l.filterMap id = [] := by
      rw [List.filterMap_eq_nil_iff]
      intro c hc
      rw [hnil c hc]
      rfl
    rw [hall, hfm]
    rfl

/-- Witness of C6: `CloseAll(c1, nil, c2, c3)` with `c2` failing returns the
error of `c2`; `CloseAll()` and `CloseAll(nil, nil)` return nil and call
nothing. -/
theorem closeAll_result_first_failure_witness :
    (CloseAll exampleEnv
        (Slice.ofList [some (.obj 1), none, some (.obj 2), some (.obj 3)])
        ⟨exampleInit, []⟩).2 = some "closer2" ∧
      CloseAll exampleEnv (Slice.ofList []) ⟨exampleInit, []⟩ = (⟨exampleInit, []⟩, none) ∧
      CloseAll exampleEnv (Slice.ofList [none, none]) ⟨exampleInit, []⟩ =
        (⟨exampleInit, []⟩, none) :=
  ⟨by decide,
    (closeAll_result_first_failure exampleEnv (Slice.ofList [])
      (Slice.ofList_keepsSlice exampleEnv _) [] ⟨exampleInit, []⟩ rfl (fun _ => rfl)).2
      (by simp),
    (closeAll_result_first_failure exampleEnv (Slice.ofList [none, none])
      (Slice.ofList_keepsSlice exampleEnv _) [none, none] ⟨exampleInit, []⟩ rfl
      (fun _ => rfl)).2 (by simp)⟩

/-! ## `Closers.CloseDefered` -/

/-- C7, as stated, fails: the error variable holds `E1` before the call, the
callback `f2` sets it to nil and fails with `E2`, and after `CloseDefered` the
variable holds `E2`. -/
theorem closeDefered_slot_overwritten :
    failedState.errs 0 = some "E1" ∧
      (Closers.CloseDefered slotWritingEnv (some 0) ⟨failedState, []⟩).map
        (fun r => r.st.errs 0) = some (some "E2") := by
  decide

/-- C7, amended: for every aggregator whose callbacks do not write the error
variable, and every non-nil error `e1` held by the variable before the call,
whenever `CloseDefered` returns the variable still holds `e1`, whatever
`Close` returned; `CloseDefered` then does what `Close` does; and it returns
when no callback removes or replaces an entry of the aggregator. -/
theorem closeDefered_keeps_prior_error (env : Env σ ε) (p : Nat) (hK : KeepsErr env p)
    (r : Run σ ε) (e1 : ε) (h1 : r.st.errs p = some e1) :
    (KeepsEntries env → ∃ r', Closers.CloseDefered env (some p) r = some r') ∧
      (∀ r' err, Closers.Close env r = some (r', err) →
        Closers.CloseDefered env (some p) r = some r') ∧
      ∀ r', Closers.CloseDefered env (some p) r = some r' → r'.st.errs p = some e1 := by
  have hclose : ∀ r' err, Closers.Close env r = some (r', err) →
      Closers.CloseDefered env (some p) r = some r' ∧ r'.st.errs p = some e1 := by
    intro r' err hrun
    have hp : r'.st.errs p = some e1 := by
      rw [Closers.Close_errs env p hK r r' err hrun, h1]
    refine ⟨?_, hp⟩
    simp [Closers.CloseDefered, hrun, hp]
  refine ⟨?_, fun r' err hrun => (hclose r' err hrun).1, ?_⟩
  · intro hE
    obtain ⟨r', err, _, hrun, _⟩ := Closers.Close_spec env hE r
    exact ⟨r', (hclose r' err hrun).1⟩
  · intro r' hdef
    cases hrun : Closers.Close env r with
    | none => simp [Closers.CloseDefered, hrun] at hdef
    | some out =>
      obtain ⟨r1, err⟩ := out
      obtain ⟨h2, h3⟩ := hclose r1 err hrun
      rw [h2] at hdef
      cases hdef
      exact h3

/-- Witness of C7: in the example, with `err` holding `E1` before the deferred
close, `Close` returns the error of `closer2` and `err` still holds `E1`. -/
theorem closeDefered_keeps_prior_error_witness :
    (Closers.Close exampleEnv ⟨exampleFailed, []⟩).map (fun o => o.2) =
        some (some "closer2") ∧
      ∃ r', Closers.CloseDefered exampleEnv (some 0) ⟨exampleFailed, []⟩ = some r' ∧
        r'.st.errs 0 = some "E1" := by
  refine ⟨by decide, ?_⟩
  have hthm := closeDefered_keeps_prior_error exampleEnv 0 (exampleEnv_keepsErr 0)
    ⟨exampleFailed, []⟩ "E1" rfl
  obtain ⟨r', hdef⟩ := hthm.1 exampleEnv_keepsAggregator.keepsEntries
  exact ⟨r', hdef, hthm.2.2 r' hdef⟩

/-- C8: for every aggregator whose callbacks do not write the error variable,
if the variable holds nil before `CloseDefered`, then whenever `Close` would
return on that aggregator, `CloseDefered` returns with the variable holding
exactly the result of `Close`, which is the first non-nil error among the calls
made, nil when every call succeeded; nothing else differs from what `Close`
does; and `Close` returns when no callback removes or replaces an entry of the
aggregator. -/
theorem closeDefered_stores_result (env : Env σ ε) (p : Nat) (hK : KeepsErr env p)
    (r : Run σ ε) (h0 : r.st.errs p = none) :
    (KeepsEntries env → ∃ r' err, Closers.Close env r = some (r', err)) ∧
      ∀ r' err, Closers.Close env r = some (r', err) →
        (∃ evs, r'.trace = r.trace ++ evs ∧ err = firstErr (evs.map Event.res)) ∧
        ∃ r'', Closers.CloseDefered env (some p) r = some r'' ∧
          r''.st.errs p = err ∧
          (∀ q, q ≠ p → r''.st.errs q = r'.st.errs q) ∧
          r''.st.c = r'.st.c ∧ r''.st.ext = r'.st.ext ∧ r''.trace = r'.trace := by
  constructor
  · intro hE
    obtain ⟨r', err, _, hrun, _⟩ := Closers.Close_spec env hE r
    exact ⟨r', err, hrun⟩
  · intro r' err hrun
    refine ⟨(Closers.Close_log env r r' err hrun).2, ?_⟩
    have hp : r'.st.errs p = none := by
      rw [Closers.Close_errs env p hK r r' err hrun, h0]
    refine ⟨{ r' with st := { r'.st with errs := Function.update r'.st.errs p err } },
      ?_, ?_, ?_, rfl, rfl, rfl⟩
    · simp [Closers.CloseDefered, hrun, hp]
    · simp
    · intro q hq
      simp [Function.update, hq]

/-- Witness of C8: in the example, `err` is nil before the deferred close and
holds the error of `closer2` after it. -/
theorem closeDefered_stores_result_witness :
    ∃ r'', Closers.CloseDefered exampleEnv (some 0) ⟨register exampleRegs exampleInit, []⟩ =
        some r'' ∧
      r''.st.errs 0 = some "closer2" := by
  have hthm := closeDefered_stores_result exampleEnv 0 (exampleEnv_keepsErr 0)
    ⟨register exampleRegs exampleInit, []⟩ rfl
  obtain ⟨r', err, hrun⟩ := hthm.1 exampleEnv_keepsAggregator.keepsEntries
  obtain ⟨_, r'', hdef, hslot, _⟩ := hthm.2 r' err hrun
  refine ⟨r'', hdef, ?_⟩
  rw [hslot]
  have herr : (Closers.Close exampleEnv ⟨register exampleRegs exampleInit, []⟩).map
      (fun o => o.2) = some (some "closer2") := by decide
  rw [hrun] at herr
  simpa using herr

/-! ## Registration and `CloserFunc` -/

/-- C9: `Append` and `AppendFunc` skip nil entries: the state after the call is
the state after the same call with the nil arguments filtered out; after
registration calls with nil arguments only, an empty aggregator is unchanged
and holds no entry, and `Close` on it returns nil and calls nothing. -/
theorem append_skips_nil (env : Env σ ε) :
    (∀ (args : List (Option Closer)) (s : State σ ε),
        Closers.Append args s = Closers.Append (args.filter Option.isSome) s) ∧
      (∀ (args : List (Option Func)) (s : State σ ε),
        Closers.AppendFunc args s = Closers.AppendFunc (args.filter Option.isSome) s) ∧
      ∀ (ops : List Reg) (s0 : State σ ε) (tr : List (Event ε)),
        (∀ op ∈ ops, op.onlyNil = true) → s0.c.closers = [] →
        register ops s0 = s0 ∧ (register ops s0).c.closers = [] ∧
          Closers.Close env ⟨register ops s0, tr⟩ = some (⟨register ops s0, tr⟩, none) := by
  refine ⟨Closers.Append_filter, Closers.AppendFunc_filter, ?_⟩
  intro ops s0 tr hnil h0
  have hreg := register_onlyNil ops hnil s0
  rw [hreg]
  exact ⟨rfl, h0, Closers.Close_empty env ⟨s0, tr⟩ h0⟩

/-- Witness of C9: after `Append(nil, nil)` and `AppendFunc(nil)` on the empty
aggregator of the example, `Close` returns nil and calls nothing. -/
theorem append_skips_nil_witness :
    (register [Reg.append [none, none], Reg.appendFunc [none]] exampleInit).c.closers = [] ∧
      Closers.Close exampleEnv
          ⟨register [Reg.append [none, none], Reg.appendFunc [none]] exampleInit, []⟩ =
        some (⟨register [Reg.append [none, none], Reg.appendFunc [none]] exampleInit, []⟩,
          none) :=
  ((append_skips_nil exampleEnv).2.2 [Reg.append [none, none], Reg.appendFunc [none]]
    exampleInit [] (by decide) rfl).2

/-- C10: `CloserFunc.Close` on the nil function returns nil and changes
nothing; on a non-nil function `fn` it calls `fn` exactly once, leaves the state
as `fn` left it and returns what `fn` returned; and the method value
`CloserFunc(fn).Close`, run as a callback, behaves in the same way. -/
theorem closerFunc_close (env : Env σ ε) (r : Run σ ε) :
    CloserFunc.Close env none r = (r, none) ∧
      (∀ fn : Func, CloserFunc.Close env (some fn) r =
        (⟨(fn.call env r.st).1, r.trace ++ [⟨fn, (fn.call env r.st).2⟩]⟩,
          (fn.call env r.st).2)) ∧
      ∀ fn : Option Func, (Closer.closerFunc fn).Close.call env r.st =
        ((CloserFunc.Close env fn r).1.st, (CloserFunc.Close env fn r).2) := by
  refine ⟨rfl, fun _ => rfl, ?_⟩
  intro fn
  cases fn <;> rfl

/-! ## Reuse, the deferred close and the order of registration -/

/-- C11, as stated, fails, in two ways.  After
`Append(c4); Close; Append(c1, c2); Close`, where the `Close` method of `c2`
replaces the entries of the aggregator by `f3`, the second `Close` calls `c2`
then `f3`, not `c2` then `c1`.  And with a closer `c1` that fails when closed
again, which does not touch the aggregator, the second `Close` of
`Append(c1); Close; Append(c1); Close` returns its error, while `Close` on a
fresh aggregator holding `c1` returns nil: the result does not depend on the
second round only. -/
theorem reuse_replaced_entries :
    ((registered [Reg.append twoClosers]).reverse = [.user 2, .user 1] ∧
      ((Closers.Close replacingEnv ⟨register [Reg.append [some (.obj 4)]] freshState, []⟩).bind
          fun o => Closers.Close replacingEnv
            ⟨register [Reg.append twoClosers] o.1.st, []⟩).map
        (fun o => o.1.trace.map Event.fn) = some [.user 2, .user 3]) ∧
    (KeepsAggregator secondCallEnv ∧
      ((Closers.Close secondCallEnv
            ⟨register [Reg.append [some (.obj 1)]] unclosedState, []⟩).bind
          fun o => Closers.Close secondCallEnv
            ⟨register [Reg.append [some (.obj 1)]] o.1.st, []⟩).map
        (fun o => o.2) = some (some "already closed") ∧
      (Closers.Close secondCallEnv
          ⟨register [Reg.append [some (.obj 1)]] unclosedState, []⟩).map
        (fun o => o.2) = some none) := by
  refine ⟨by decide, ?_, by decide, by decide⟩
  intro id s
  unfold secondCallEnv
  split <;> rfl

/-- C11, amended: for callbacks that never remove or replace an entry of the
aggregator, and every first round and second round of registrations, in
`register L1; Close; register L2; Close` both passes return, the second one
calls exactly the non-nil entries of the second round, last one first, and none
of the first round, its result is the first non-nil error among these calls,
and the aggregator is empty again; and when the errors that callbacks return
do not depend on the program state, the second pass logs the calls and returns
the error of `Close` on any fresh aggregator holding the second round, in any
program state. -/
theorem close_reusable (env : Env σ ε) (hK : KeepsEntries env) (ops1 ops2 : List Reg)
    (s0 : State σ ε) (tr : List (Event ε)) :
    ∃ r1 err1 r2 err2 evs2,
      Closers.Close env ⟨register ops1 s0, tr⟩ = some (r1, err1) ∧
      Closers.Close env ⟨register ops2 r1.st, r1.trace⟩ = some (r2, err2) ∧
      r2.trace = r1.trace ++ evs2 ∧
      evs2.map Event.fn = (registered ops2).reverse ∧
      err2 = firstErr (evs2.map Event.res) ∧
      r2.st.c.closers = [] ∧
      (StateFreeResult env →
        ∀ (s' : State σ ε) (tr' : List (Event ε)), s'.c.closers = [] →
          ∃ r2', Closers.Close env ⟨register ops2 s', tr'⟩ = some (r2', err2) ∧
            r2'.trace = tr' ++ evs2) := by
  obtain ⟨r1, err1, _, hrun1, _, _, _, hempty⟩ :=
    Closers.Close_spec env hK ⟨register ops1 s0, tr⟩
  obtain ⟨r2, err2, evs2, hrun2, htr2, hfn2, herr2, hempty2⟩ :=
    Closers.Close_spec env hK ⟨register ops2 r1.st, r1.trace⟩
  have hentries : ∀ s : State σ ε, s.c.closers = [] →
      ((register ops2 s).c.closers.filterMap id).reverse = (registered ops2).reverse := by
    intro s hs
    simp only [register_closers, hs, List.nil_append, filterMap_id_map_some]
  refine ⟨r1, err1, r2, err2, evs2, hrun1, hrun2, htr2, ?_, herr2, hempty2, ?_⟩
  · rw [hfn2, hentries r1.st hempty]
  · intro hfree s' tr' hs'
    have hA := Closers.Close_eq env hK ⟨register ops2 r1.st, r1.trace⟩
    have hB := Closers.Close_eq env hK ⟨register ops2 s', tr'⟩
    simp only [hentries r1.st hempty] at hA
    simp only [hentries s' hs'] at hB
    obtain ⟨evs, h1, h2, h3⟩ := invokeAll_stateFree env hfree (registered ops2).reverse
      ⟨register ops2 r1.st, r1.trace⟩ ⟨register ops2 s', tr'⟩ none
    rw [hrun2] at hA
    simp only [Option.some.injEq, Prod.mk.injEq] at hA
    obtain ⟨hA1, hA2⟩ := hA
    have hevs : evs = evs2 := by
      have htrace : r2.trace = r1.trace ++ evs := by
        rw [hA1]
        exact h1
      rw [htr2] at htrace
      exact (List.append_cancel_left htrace).symm
    refine ⟨⟨{ (invokeAll env (registered ops2).reverse ⟨register ops2 s', tr'⟩ none).1.st with
          c := { closers := [] } },
        (invokeAll env (registered ops2).reverse ⟨register ops2 s', tr'⟩ none).1.trace⟩,
      ?_, ?_⟩
    · rw [hB, hA2, h3]
    · rw [← hevs]
      exact h2

/-- Witness of C11: the four closers of the example are registered and closed,
then `closer3` and `closer2` are registered with `Append`: the second pass
calls `closer2` then `closer3`, and returns what `Close` returns on a fresh
aggregator holding them. -/
theorem close_reusable_witness :
    ∃ r1 err1 r2 err2 evs2,
      Closers.Close exampleEnv ⟨register exampleRegs exampleInit, []⟩ = some (r1, err1) ∧
      Closers.Close exampleEnv
          ⟨register [Reg.append [some (.obj 3), some (.obj 2)]] r1.st, r1.trace⟩ =
        some (r2, err2) ∧
      r2.trace = r1.trace ++ evs2 ∧
      evs2.map Event.fn = [.user 2, .user 3] ∧
      err2 = firstErr (evs2.map Event.res) ∧
      r2.st.c.closers = [] ∧
      ∃ r2', Closers.Close exampleEnv
            ⟨register [Reg.append [some (.obj 3), some (.obj 2)]] exampleInit, []⟩ =
          some (r2', err2) ∧
        r2'.trace = [] ++ evs2 := by
  obtain ⟨r1, err1, r2, err2, evs2, h1, h2, h3, h4, h5, h6, h7⟩ :=
    close_reusable exampleEnv exampleEnv_keepsAggregator.keepsEntries exampleRegs
      [Reg.append [some (.obj 3), some (.obj 2)]] exampleInit []
  exact ⟨r1, err1, r2, err2, evs2, h1, h2, h3, h4, h5, h6,
    h7 exampleEnv_stateFreeResult exampleInit [] rfl⟩

/-- C12: for every aggregator, every slot (a nil pointer, or the address of a
variable holding nil or a prior error) and any callbacks, `CloseDefered` fails
exactly when `Close` would, and whenever `Close` would return, `CloseDefered`
returns with the same log of calls, the same emptied aggregator and the same
state, except possibly for the error variable that the slot points to; `Close`
returns when no callback removes or replaces an entry of the aggregator. -/
theorem closeDefered_full_pass (env : Env σ ε) (perr : Option Nat) (r : Run σ ε) :
    (Closers.Close env r = none → Closers.CloseDefered env perr r = none) ∧
      (∀ r' err, Closers.Close env r = some (r', err) →
        ∃ r'', Closers.CloseDefered env perr r = some r'' ∧
          r''.trace = r'.trace ∧ r''.st.c = r'.st.c ∧ r''.st.c.closers = [] ∧
          r''.st.ext = r'.st.ext ∧ ∀ q, perr ≠ some q → r''.st.errs q = r'.st.errs q) ∧
      (KeepsEntries env → ∃ r' err, Closers.Close env r = some (r', err)) := by
  refine ⟨?_, ?_, ?_⟩
  · intro hnone
    simp [Closers.CloseDefered, hnone]
  · intro r' err hrun
    have hempty := (Closers.Close_log env r r' err hrun).1
    cases perr with
    | none =>
      exact ⟨r', by simp [Closers.CloseDefered, hrun], rfl, rfl, hempty, rfl, fun _ _ => rfl⟩
    | some p =>
      by_cases hp : (r'.st.errs p).isNone = true
      · refine ⟨{ r' with st := { r'.st with errs := Function.update r'.st.errs p err } },
          by simp [Closers.CloseDefered, hrun, hp], rfl, rfl, hempty, rfl, ?_⟩
        intro q hq
        have hne : q ≠ p := fun h => hq (by rw [h])
        simp [Function.update, hne]
      · exact ⟨r', by simp [Closers.CloseDefered, hrun, hp], rfl, rfl, hempty, rfl,
          fun _ _ => rfl⟩
  · intro hK
    obtain ⟨r', err, _, hrun, _⟩ := Closers.Close_spec env hK r
    exact ⟨r', err, hrun⟩

/-- Witness of C12: in the example, with `err` holding nil or holding `E1`, the
deferred close logs the four calls that `Close` logs and empties the
aggregator. -/
theorem closeDefered_full_pass_witness :
    ((Closers.CloseDefered exampleEnv (some 0) ⟨register exampleRegs exampleInit, []⟩).map
        fun r => (r.trace, r.st.c.closers)) =
      (Closers.Close exampleEnv ⟨register exampleRegs exampleInit, []⟩).map
        (fun o => (o.1.trace, [])) ∧
    ((Closers.CloseDefered exampleEnv (some 0) ⟨exampleFailed, []⟩).map
        fun r => (r.trace, r.st.c.closers)) =
      (Closers.Close exampleEnv ⟨exampleFailed, []⟩).map (fun o => (o.1.trace, [])) ∧
    ∃ r' err, Closers.Close exampleEnv ⟨exampleFailed, []⟩ = some (r', err) :=
  ⟨by decide, by decide,
    (closeDefered_full_pass exampleEnv (some 0) ⟨exampleFailed, []⟩).2.2
      exampleEnv_keepsAggregator.keepsEntries⟩

/-- C13: `Append` composes over concatenation and keeps argument order: for
every state and argument lists `xs` and `ys`, `Append(xs ++ ys)` gives the
state that `Append(xs)` followed by `Append(ys)` gives, and its entries are the
previous ones followed by the `Close` method values of the non-nil entries of
`xs`, then of `ys`, in argument order; likewise for `AppendFunc` with the
non-nil functions themselves. -/
theorem append_concat (s : State σ ε) :
    (∀ xs ys : List (Option Closer),
        Closers.Append (xs ++ ys) s = Closers.Append ys (Closers.Append xs s) ∧
        (Closers.Append (xs ++ ys) s).c.closers =
          s.c.closers ++ ((xs.filterMap id).map Closer.Close).map some ++
            ((ys.filterMap id).map Closer.Close).map some) ∧
      ∀ xs ys : List (Option Func),
        Closers.AppendFunc (xs ++ ys) s = Closers.AppendFunc ys (Closers.AppendFunc xs s) ∧
        (Closers.AppendFunc (xs ++ ys) s).c.closers =
          s.c.closers ++ (xs.filterMap id).map some ++ (ys.filterMap id).map some := by
  constructor
  · intro xs ys
    refine ⟨Closers.Append_append xs ys s, ?_⟩
    rw [Closers.Append_closers]
    simp [List.filterMap_append]
  · intro xs ys
    refine ⟨Closers.AppendFunc_append xs ys s, ?_⟩
    rw [Closers.AppendFunc_closers]
    simp [List.filterMap_append]

/-! ## `AppendFunc` and `Append`, `Close` and `CloseAll` -/

/-- C14, as stated, fails: with `f2` replacing the entries of the aggregator by
`f3`, `Close` after `AppendFunc(nil, f2)` runs `f2` only, and `Close` after
`Append(CloserFunc(nil), CloserFunc(f2))` runs `f2` then `f3`; and with the
callbacks of the example, `Close` after `AppendFunc(nil)` makes no call while
`Close` after `Append(CloserFunc(nil))` calls the recorded method value
`CloserFunc(nil).Close`. -/
theorem appendFunc_vs_append_replaced_entries :
    (Closers.Close replacingEnv
        ⟨Closers.AppendFunc [none, some (.user 2)] freshState, []⟩).map
      (fun o => userCalls o.1.trace) = some [(2, none)] ∧
    (Closers.Close replacingEnv
        ⟨Closers.Append (wrapAll [none, some (.user 2)]) freshState, []⟩).map
      (fun o => userCalls o.1.trace) = some [(2, none), (3, none)] ∧
    (Closers.Close exampleEnv ⟨Closers.AppendFunc [none] exampleInit, []⟩).map
      (fun o => o.1.trace) = some [] ∧
    (Closers.Close exampleEnv ⟨Closers.Append (wrapAll [none]) exampleInit, []⟩).map
      (fun o => o.1.trace) = some [⟨.closerFuncNil, none⟩] := by
  decide

/-- C14, amended: for callbacks that do not touch the aggregator, every list of
functions `f1, ..., fn`, each possibly nil, and every aggregator state, `Close`
after `AppendFunc(f1, ..., fn)` and `Close` after
`Append(CloserFunc(f1), ..., CloserFunc(fn))` both return, with the same error,
the same final state and the same calls of caller code, in the same order and
with the same results. -/
theorem appendFunc_as_append (env : Env σ ε) (hI : IgnoresAggregator env)
    (fs : List (Option Func)) (s : State σ ε) (tr : List (Event ε)) :
    ∃ rF rA err,
      Closers.Close env ⟨Closers.AppendFunc fs s, tr⟩ = some (rF, err) ∧
      Closers.Close env ⟨Closers.Append (wrapAll fs) s, tr⟩ = some (rA, err) ∧
      rF.st = rA.st ∧ userCalls rF.trace = userCalls rA.trace := by
  have htargets :
      (((Closers.AppendFunc fs s).c.closers.filterMap id).reverse.filterMap Func.target) =
        (((Closers.Append (wrapAll fs) s).c.closers.filterMap id).reverse.filterMap
          Func.target) := by
    rw [Closers.AppendFunc_closers, Closers.Append_closers]
    simp only [List.filterMap_append, filterMap_id_map_some, List.reverse_append,
      List.filterMap_reverse, wrapAll_targets]
  obtain ⟨rF, errF, hF, hF1, hF2, hF3⟩ :=
    Closers.Close_canonical env hI s (Closers.AppendFunc fs s).c tr
  obtain ⟨rA, errA, hA, hA1, hA2, hA3⟩ :=
    Closers.Close_canonical env hI s (Closers.Append (wrapAll fs) s).c tr
  rw [← Closers.AppendFunc_frame] at hF
  rw [← Closers.Append_frame] at hA
  rw [htargets] at hF1 hF2 hF3
  refine ⟨rF, rA, errF, hF, ?_, ?_, ?_⟩
  · rw [hF2, ← hA2]
    exact hA
  · rw [hF1, hA1]
  · rw [hF3, hA3]

/-- Witness of C14: with the callbacks of the example, after
`AppendFunc(closer1, nil, closer2)` and after
`Append(CloserFunc(closer1), CloserFunc(nil), CloserFunc(closer2))` the close
pass returns the same error and leaves the same state. -/
theorem appendFunc_as_append_witness :
    ∃ rF rA err,
      Closers.Close exampleEnv
          ⟨Closers.AppendFunc [some (.user 1), none, some (.user 2)] exampleInit, []⟩ =
        some (rF, err) ∧
      Closers.Close exampleEnv
          ⟨Closers.Append (wrapAll [some (.user 1), none, some (.user 2)]) exampleInit, []⟩ =
        some (rA, err) ∧
      rF.st = rA.st ∧ userCalls rF.trace = userCalls rA.trace :=
  appendFunc_as_append exampleEnv exampleEnv_ignoresAggregator
    [some (.user 1), none, some (.user 2)] exampleInit []

/-- C15, as stated, fails, in two ways.  With the `Close` method of `c2`
replacing the entries of the aggregator by `f3`, `Close` after `Append(c1, c2)`
on an empty aggregator calls `c2` then `f3`, and `CloseAll(c2, c1)` calls `c2`
then `c1`.  And with callbacks that ignore the aggregator, where the `Close`
method of `c1` does `s[1] = c4` on the caller's slice `s = [c1, c2]`, `Close`
after `Append(c2, c1)` calls `c1` then `c2` and returns nil, and
`CloseAll(s...)` calls `c1` then `c4` and returns `E4`. -/
theorem close_vs_closeAll_replaced_entries :
    ((Closers.Close replacingEnv ⟨Closers.Append twoClosers freshState, []⟩).map
        (fun o => o.1.trace.map Event.fn) = some [.user 2, .user 3] ∧
      (CloseAll replacingEnv (Slice.ofList twoClosers.reverse)
        ⟨freshState, []⟩).1.trace.map Event.fn = [.user 2, .user 1]) ∧
    (IgnoresAggregator sliceWritingEnv ∧
      (callerSlice 2).get sliceState 0 = some (.obj 1) ∧
      (callerSlice 2).get sliceState 1 = some (.obj 2) ∧
      (Closers.Close sliceWritingEnv
          ⟨Closers.Append [some (.obj 2), some (.obj 1)] sliceState, []⟩).map
        (fun o => (o.1.trace.map Event.fn, o.2)) = some ([.user 1, .user 2], none) ∧
      ((CloseAll sliceWritingEnv (callerSlice 2) ⟨sliceState, []⟩).1.trace.map Event.fn,
        (CloseAll sliceWritingEnv (callerSlice 2) ⟨sliceState, []⟩).2) =
          ([.user 1, .user 4], some "E4")) := by
  refine ⟨by decide, ?_, by decide, by decide, by decide, by decide⟩
  intro id s c
  unfold sliceWritingEnv
  split <;> rfl

/-- C15, amended: for callbacks that touch neither the aggregator nor the slice
passed to `CloseAll`, and every list of closers `c1, ..., cn`, possibly with nil
entries, `Append(c1, ..., cn)` on an empty aggregator followed by `Close`
returns, and with the log, the final state and the error of `CloseAll` on the
slice holding `cn, ..., c1`. -/
theorem close_as_closeAll (env : Env σ ε) (hI : IgnoresAggregator env)
    (closers : Slice σ ε) (hS : KeepsSlice env closers)
    (args : List (Option Closer)) (s0 : State σ ε) (h0 : s0.c.closers = [])
    (hlen : closers.len = args.length)
    (hget : ∀ j, closers.get s0 j = (args.reverse[j]?).join) (tr : List (Event ε)) :
    Closers.Close env ⟨Closers.Append args s0, tr⟩ =
      some (CloseAll env closers ⟨s0, tr⟩) := by
  have hlist : ((Closers.Append args s0).c.closers.filterMap id).reverse =
      (args.reverse.filterMap id).map Closer.Close := by
    rw [Closers.Append_closers, h0, List.nil_append, filterMap_id_map_some,
      List.filterMap_reverse, List.map_reverse]
  have hclose := Closers.Close_eq env hI.keepsAggregator.keepsEntries
    ⟨Closers.Append args s0, tr⟩
  simp only [hlist] at hclose
  have hset := invokeAll_setC env hI ((args.reverse.filterMap id).map Closer.Close) s0
    (Closers.Append args s0).c tr none
  have hc : (invokeAll env ((args.reverse.filterMap id).map Closer.Close) ⟨s0, tr⟩ none).1.st.c =
      { closers := [] } := by
    have hkeep := invokeAll_rel env (fun s s' => s'.c = s.c) (fun _ => rfl)
      (fun _ _ _ h1 h2 => h2.trans h1) hI.keepsAggregator
      ((args.reverse.filterMap id).map Closer.Close) ⟨s0, tr⟩ none
    simp only at hkeep
    rw [hkeep]
    obtain ⟨⟨cl⟩, errs, ext⟩ := s0
    simp only at h0
    subst h0
    rfl
  have hall := CloseAll_invokeAll env closers hS args.reverse ⟨s0, tr⟩
    (by rw [hlen, List.length_reverse]) hget
  rw [hclose, hall]
  rw [Closers.Append_frame args s0, hset]
  generalize invokeAll env ((args.reverse.filterMap id).map Closer.Close) ⟨s0, tr⟩ none = o
    at hc
  obtain ⟨⟨⟨c, errs, ext⟩, tr'⟩, e⟩ := o
  simp only at hc
  subst hc
  rfl

/-- Witness of C15: with the callbacks of the example, `Close` after
`Append(closer1, nil, closer2, closer3)` is `CloseAll(closer3, closer2, nil,
closer1)`. -/
theorem close_as_closeAll_witness :
    Closers.Close exampleEnv
        ⟨Closers.Append [some (.obj 1), none, some (.obj 2), some (.obj 3)] exampleInit, []⟩ =
      some (CloseAll exampleEnv
        (Slice.ofList [some (.obj 3), some (.obj 2), none, some (.obj 1)])
        ⟨exampleInit, []⟩) :=
  close_as_closeAll exampleEnv exampleEnv_ignoresAggregator
    (Slice.ofList [some (.obj 3), some (.obj 2), none, some (.obj 1)])
    (Slice.ofList_keepsSlice exampleEnv _)
    [some (.obj 1), none, some (.obj 2), some (.obj 3)] exampleInit rfl rfl (fun _ => rfl) []

/-! ## The nil slot, and registration inside and outside a close pass -/

/-- C16, as stated, fails: after `AppendFunc(f1, f2)`, where `f2` replaces the
entries of the aggregator by `f3`, `CloseDefered(nil)` returns having called
`f2` then `f3`: the recorded callback `f1` is not called. -/
theorem closeDefered_nil_slot_replaced_entries :
    registered twoFuncs = [.user 1, .user 2] ∧
      (Closers.CloseDefered replacingEnv none ⟨register twoFuncs freshState, []⟩).map
        (fun r => r.trace.map Event.fn) = some [.user 2, .user 3] := by
  decide

/-- C16, amended: `CloseDefered` with a nil pointer is `Close` with its result
discarded, for any callbacks: it fails only when `Close` does and it writes no
error variable; and for callbacks that never remove or replace an entry of the
aggregator it returns, having called every recorded entry once, last one first,
and leaving the aggregator empty. -/
theorem closeDefered_nil_slot (env : Env σ ε) (r : Run σ ε) :
    Closers.CloseDefered env none r = (Closers.Close env r).map Prod.fst ∧
      (KeepsEntries env →
        ∃ r' err evs, Closers.CloseDefered env none r = some r' ∧
          Closers.Close env r = some (r', err) ∧
          r'.trace = r.trace ++ evs ∧
          evs.map Event.fn = (r.st.c.closers.filterMap id).reverse ∧
          r'.st.c.closers = []) := by
  have hgen : Closers.CloseDefered env none r = (Closers.Close env r).map Prod.fst := by
    unfold Closers.CloseDefered
    cases Closers.Close env r with
    | none => rfl
    | some o => rfl
  refine ⟨hgen, ?_⟩
  intro hK
  obtain ⟨r', err, evs, hrun, htr, hfn, _, hempty⟩ := Closers.Close_spec env hK r
  exact ⟨r', err, evs, by rw [hgen, hrun]; rfl, hrun, htr, hfn, hempty⟩

/-- Witness of C16: in the example, `CloseDefered(nil)` calls `closer4`,
`closer3`, `closer2`, `closer1` and empties the aggregator. -/
theorem closeDefered_nil_slot_witness :
    ∃ r' err evs,
      Closers.CloseDefered exampleEnv none ⟨register exampleRegs exampleInit, []⟩ = some r' ∧
      Closers.Close exampleEnv ⟨register exampleRegs exampleInit, []⟩ = some (r', err) ∧
      r'.trace = [] ++ evs ∧
      evs.map Event.fn = [.user 4, .user 3, .user 2, .user 1] ∧
      r'.st.c.closers = [] :=
  (closeDefered_nil_slot exampleEnv ⟨register exampleRegs exampleInit, []⟩).2
    exampleEnv_keepsAggregator.keepsEntries

/-- C17: for every state and argument list, `Append` and `AppendFunc` change
nothing but the aggregator (the error variables, the caller's state and, in a
run, the log of calls are as before: no callback has run), and the previous
entries are a prefix of the new ones: every entry stays at its position. -/
theorem registration_only_extends (s : State σ ε) (tr : List (Event ε)) :
    (∀ args : List (Option Closer),
        (∃ t, (Closers.Append args s).c.closers = s.c.closers ++ t) ∧
        (∀ (i : Nat) (e : Option Func), s.c.closers[i]? = some e →
          (Closers.Append args s).c.closers[i]? = some e) ∧
        (Closers.Append args s).errs = s.errs ∧ (Closers.Append args s).ext = s.ext ∧
        (⟨Closers.Append args s, tr⟩ : Run σ ε).trace = tr) ∧
      ∀ args : List (Option Func),
        (∃ t, (Closers.AppendFunc args s).c.closers = s.c.closers ++ t) ∧
        (∀ (i : Nat) (e : Option Func), s.c.closers[i]? = some e →
          (Closers.AppendFunc args s).c.closers[i]? = some e) ∧
        (Closers.AppendFunc args s).errs = s.errs ∧ (Closers.AppendFunc args s).ext = s.ext ∧
        (⟨Closers.AppendFunc args s, tr⟩ : Run σ ε).trace = tr := by
  constructor
  · intro args
    refine ⟨⟨_, Closers.Append_closers args s⟩, ?_, ?_, ?_, rfl⟩
    · intro i e hi
      rw [Closers.Append_closers]
      exact getElem?_append_of_some _ _ i e hi
    · rw [Closers.Append_frame args s]
    · rw [Closers.Append_frame args s]
  · intro args
    refine ⟨⟨_, Closers.AppendFunc_closers args s⟩, ?_, ?_, ?_, rfl⟩
    · intro i e hi
      rw [Closers.AppendFunc_closers]
      exact getElem?_append_of_some _ _ i e hi
    · rw [Closers.AppendFunc_frame args s]
    · rw [Closers.AppendFunc_frame args s]

/-- Witness of C17: registering `closer4` with `AppendFunc` on the aggregator
that holds `closer1`, `closer2`, `closer3` keeps these at positions 0, 1, 2. -/
theorem registration_only_extends_witness :
    (Closers.AppendFunc [some (.user 4)]
        (Closers.Append [some (.obj 1), some (.obj 2), some (.obj 3)] exampleInit)).c.closers[1]? =
      some (some (.user 2)) :=
  ((registration_only_extends
      (Closers.Append [some (.obj 1), some (.obj 2), some (.obj 3)] exampleInit) []).2
    [some (.user 4)]).2.1 1 (some (.user 2)) rfl

/-- C18, as stated, fails: after `AppendFunc(f1, f2)`, the recorded callback
`f2`, while being run by `Close`, registers the new closer `f3` on the same
aggregator, after emptying it, and that same pass calls `f3`. -/
theorem registration_during_close_invoked :
    some (Func.user 3) ∉ (register twoFuncs freshState).c.closers ∧
      (∀ s, (replacingEnv 2 s).1 =
        Closers.AppendFunc [some (.user 3)] { s with c := { closers := [] } }) ∧
      (Closers.Close replacingEnv ⟨register twoFuncs freshState, []⟩).map
        (fun o => o.1.trace) = some [⟨.user 2, none⟩, ⟨.user 3, none⟩] := by
  refine ⟨by decide, fun _ => rfl, by decide⟩

/-- C18, amended: when no callback removes or replaces an entry of the
aggregator (callbacks touch it at most by appending), a recorded entry runs
caller code that leaves a closer `g` in the aggregator, and `g` was not
recorded before the pass, then `Close` returns; `g` is in the slice when the
loop ends but the pass has not called it; the aggregator is empty when `Close`
returns; the next `Close` calls nothing; and a `Close` after any later
registrations that do not register `g` again does not call `g`. -/
theorem registration_during_close_lost (env : Env σ ε) (hK : KeepsEntries env)
    (r : Run σ ε) (f : Func) (k : Nat) (g : Func)
    (hrec : some f ∈ r.st.c.closers) (hid : f.target = some k)
    (happ : ∀ s, some g ∈ (env k s).1.c.closers) (hnew : some g ∉ r.st.c.closers) :
    ∃ rl r' err evs,
      Closers.Close.loop env r.st.c.closers.length r none = some (rl, err) ∧
      some g ∈ rl.st.c.closers ∧
      Closers.Close env r = some (r', err) ∧
      r'.trace = r.trace ++ evs ∧
      (∀ ev ∈ evs, ev.fn ≠ g) ∧
      r'.st.c.closers = [] ∧
      Closers.Close env r' = some (r', none) ∧
      ∀ ops : List Reg, g ∉ registered ops →
        ∃ r2 err2 evs2, Closers.Close env ⟨register ops r'.st, r'.trace⟩ = some (r2, err2) ∧
          r2.trace = r'.trace ++ evs2 ∧ ∀ ev ∈ evs2, ev.fn ≠ g := by
  have hloop := Closers.Close.loop_eq env hK r.st.c.closers r.st.c.closers.length r none
    (Nat.le_refl _) ⟨[], by simp⟩
  rw [List.take_length, List.filterMap_reverse] at hloop
  obtain ⟨r', err, evs, hrun, htr, hfn, _, hempty⟩ := Closers.Close_spec env hK r
  have herr : err = (invokeAll env (r.st.c.closers.filterMap id).reverse r none).2 := by
    have h2 := Closers.Close_eq env hK r
    rw [hrun] at h2
    simp only [Option.some.injEq, Prod.mk.injEq] at h2
    exact h2.2
  have hmem : f ∈ (r.st.c.closers.filterMap id).reverse := by
    rw [List.mem_reverse, List.mem_filterMap]
    exact ⟨some f, hrec, rfl⟩
  obtain ⟨a, b, hsplit⟩ := List.append_of_mem hmem
  have hg : some g ∈
      (invokeAll env (r.st.c.closers.filterMap id).reverse r none).1.st.c.closers := by
    rw [hsplit, invokeAll_append]
    simp only [invokeAll]
    have hcall := Func.call_target env f (invokeAll env a r none).1.st
    rw [hid] at hcall
    have hafter : some g ∈ (invoke env f (invokeAll env a r none).1).1.st.c.closers := by
      rw [invoke_st, hcall]
      exact happ _
    obtain ⟨t, ht⟩ := invokeAll_rel env (fun s s' => ∃ t, s'.c.closers = s.c.closers ++ t)
      (fun _ => ⟨[], by simp⟩)
      (fun _ _ _ h1 h2 => by
        obtain ⟨t1, h1⟩ := h1
        obtain ⟨t2, h2⟩ := h2
        exact ⟨t1 ++ t2, by rw [h2, h1, List.append_assoc]⟩)
      hK b (invoke env f (invokeAll env a r none).1).1
      (keepFirst (invokeAll env a r none).2 (invoke env f (invokeAll env a r none).1).2)
    rw [ht]
    exact List.mem_append_left _ hafter
  refine ⟨_, r', err, evs, ?_, hg, hrun, htr, ?_, hempty, Closers.Close_empty env r' hempty, ?_⟩
  · rw [hloop, herr]
  · intro ev hev hfg
    apply hnew
    have h1 : ev.fn ∈ evs.map Event.fn := List.mem_map_of_mem _ hev
    rw [hfn, List.mem_reverse, List.mem_filterMap] at h1
    obtain ⟨x, hx, hxf⟩ := h1
    simp only [id] at hxf
    rw [← hfg, ← hxf]
    exact hx
  · intro ops hops
    obtain ⟨r2, err2, evs2, hrun2, htr2, hfn2, _, _⟩ :=
      Closers.Close_spec env hK ⟨register ops r'.st, r'.trace⟩
    refine ⟨r2, err2, evs2, hrun2, htr2, ?_⟩
    intro ev hev hfg
    apply hops
    have h1 : ev.fn ∈ evs2.map Event.fn := List.mem_map_of_mem _ hev
    rw [hfn2] at h1
    simp only [register_closers, hempty, List.nil_append, filterMap_id_map_some,
      List.mem_reverse] at h1
    rw [← hfg]
    exact h1

/-- Witness of C18: after `AppendFunc(f1, f2)`, where `f2` registers `g` on the
same aggregator, `Close` calls `f2` then `f1`; `g` is in the slice when the loop
ends, is not called, and the aggregator is empty afterwards. -/
theorem registration_during_close_lost_witness :
    (Closers.Close appendingEnv ⟨register twoFuncs freshState, []⟩).map
        (fun o => o.1.trace.map Event.fn) = some [.user 2, .user 1] ∧
    ∃ rl r' err evs,
      Closers.Close.loop appendingEnv 2 ⟨register twoFuncs freshState, []⟩ none =
        some (rl, err) ∧
      some (Func.user 9) ∈ rl.st.c.closers ∧
      Closers.Close appendingEnv ⟨register twoFuncs freshState, []⟩ = some (r', err) ∧
      r'.trace = [] ++ evs ∧
      (∀ ev ∈ evs, ev.fn ≠ Func.user 9) ∧
      r'.st.c.closers = [] ∧
      Closers.Close appendingEnv r' = some (r', none) ∧
      ∀ ops : List Reg, Func.user 9 ∉ registered ops →
        ∃ r2 err2 evs2,
          Closers.Close appendingEnv ⟨register ops r'.st, r'.trace⟩ = some (r2, err2) ∧
          r2.trace = r'.trace ++ evs2 ∧ ∀ ev ∈ evs2, ev.fn ≠ Func.user 9 :=
  ⟨by decide,
    registration_during_close_lost appendingEnv appendingEnv_keepsEntries
      ⟨register twoFuncs freshState, []⟩ (.user 2) 2 (.user 9) (by decide) rfl
      (fun s => by simp [appendingEnv, Closers.AppendFunc]) (by decide)⟩

end Claims

end Ioclose
